import Mathlib

/-!
Verification development for the `discord-api-spec-ts` generator
(`src/build.ts`, function `build` in the custom-build module).

The generator consumes one parsed OpenAPI JSON document and produces
(1) a TypeScript type module (enum declarations, component types, a path
index), (2) a runtime JS mirror of the enum table, and (3) a Zod validator
module.  We shallowly embed the document as a `Json` tree and translate the
relevant functions of the source:

* enum collection (`enums` record),
* the enum-unification lookups (`mapEnumForEnum`, `mapEnumForConst`,
  `mapEnumFromAllOf`, `mapEnumFromRefs`),
* the reachability marker (`markSchema`, `markContent`, the paths loop),
* the two synthesizers (`typeFromSchema`, `zodFromSchema`),
* content-type negotiation (`pickContentType`),
* parameter projection (`collectParam`, the merged parameter loop), and
* the emission loops (component section, enum section).

Modelling conventions, shared by all definitions below:

* JS objects are `Json.obj` with insertion-ordered field lists (parsed JSON
  has unique keys; `Object.entries`/`Object.values` iterate in insertion
  order — the documents in question use non-integer-like keys, for which
  this is the JS iteration order).
* JS `undefined` (an absent property) is `Option.none`; property access on
  arrays and scalars yields `none` as in JS.  Property access on `null`
  throws in JS.  The source performs such an access unguardedly in a few
  places; the one reachable from ordinary documents — `propSchema.nullable`
  inside `typeFromSchema`'s property loop, line 538 — is modelled precisely
  by an `Option`-valued result (`none` exactly where JS throws).  Three
  further unguarded spots are reachable only from malformed documents and
  are collapsed into benign skips, each noted at its definition: a `null`
  entry of `op.parameters` (`p.schema`, line 635, marker loop), a `null`
  response value in the projector (`resp.content`, line 733), and a truthy
  non-string `$ref` (JS would throw inside `resolveRef`; `markSchema`, both
  synthesizers and the parameter loop treat it as an unusable node).  No
  theorem below exercises these collapsed branches.
* Recursive traversals take an explicit fuel argument; every recursive call
  strictly decreases the fuel.  The JS functions recurse structurally over a
  finite acyclic parsed-JSON tree (references are *not* followed by the
  synthesizers and are followed at most once per node by the marker thanks
  to its `visited` set), so a fuel larger than the document size is never
  exhausted; all theorems below either hold for every fuel or evaluate
  concrete documents with ample fuel.
* The source keys its `visited` set and its `schemaCache` on JS object
  identity.  Distinct nodes of a parsed-JSON tree that are structurally
  equal produce identical marks and identical rendered strings, so keying
  on structural equality (here) yields the same final used-sets and the
  same output; the memo `schemaCache` only short-circuits recomputation of
  an identical result and is omitted.
-/

/-- A parsed JSON value (the shape `Bun.file(srcFile).json()` yields).
Numbers are modelled as integers: every numeric literal relevant to the
claims (enum values, `const`s, length bounds) is integral. -/
inductive Json where
  | null
  | bool (b : Bool)
  | num (n : Int)
  | str (s : String)
  | arr (elems : List Json)
  | obj (fields : List (String × Json))
deriving Repr

namespace Json

mutual

/-- Structural equality of JSON values; models JS `===`/`includes` checks on
the scalar values the source compares (JS `===` on objects is identity, but
the compared values — enum members, `const`s — are scalars). -/
def beq : Json → Json → Bool
  | .null, .null => true
  | .bool a, .bool b => a == b
  | .num a, .num b => a == b
  | .str a, .str b => a == b
  | .arr a, .arr b => beqList a b
  | .obj a, .obj b => beqFields a b
  | _, _ => false

def beqList : List Json → List Json → Bool
  | [], [] => true
  | a :: as, b :: bs => beq a b && beqList as bs
  | _, _ => false

def beqFields : List (String × Json) → List (String × Json) → Bool
  | [], [] => true
  | (ka, va) :: as, (kb, vb) :: bs => ka == kb && beq va vb && beqFields as bs
  | _, _ => false

end

instance : BEq Json := ⟨Json.beq⟩

mutual

theorem beq_iff : ∀ a b : Json, beq a b = true ↔ a = b
  | .null, b => by cases b <;> simp [beq]
  | .bool x, b => by cases b <;> simp [beq]
  | .num x, b => by cases b <;> simp [beq]
  | .str x, b => by cases b <;> simp [beq]
  | .arr xs, b => by
      cases b <;> simp only [beq] <;> simp_all [beqList_iff xs]
  | .obj fs, b => by
      cases b <;> simp only [beq] <;> simp_all [beqFields_iff fs]

theorem beqList_iff : ∀ as bs : List Json, beqList as bs = true ↔ as = bs
  | [], bs => by cases bs <;> simp [beqList]
  | a :: as, bs => by
      cases bs with
      | nil => simp [beqList]
      | cons b bs =>
          simp [beqList, Bool.and_eq_true, beq_iff a b, beqList_iff as bs]

theorem beqFields_iff :
    ∀ as bs : List (String × Json), beqFields as bs = true ↔ as = bs
  | [], bs => by cases bs <;> simp [beqFields]
  | (ka, va) :: as, bs => by
      cases bs with
      | nil => simp [beqFields]
      | cons b bs =>
          obtain ⟨kb, vb⟩ := b
          simp [beqFields, Bool.and_eq_true, beq_iff va vb, beqFields_iff as bs,
            and_assoc]

end

instance : LawfulBEq Json where
  eq_of_beq h := (Json.beq_iff _ _).mp h
  rfl := (Json.beq_iff _ _).mpr rfl

instance : DecidableEq Json := fun a b =>
  decidable_of_iff _ (Json.beq_iff a b)

/-- JS truthiness of a JSON value (`NaN` cannot occur in our integer model;
all objects and arrays, including empty ones, are truthy). -/
def truthy : Json → Bool
  | .null => false
  | .bool b => b
  | .num n => n != 0
  | .str s => s != ""
  | .arr _ => true
  | .obj _ => true

/-- `isObject` from the source: `v && typeof v === "object" && !Array.isArray(v)`. -/
def isObject : Json → Bool
  | .obj _ => true
  | _ => false

/-- The JS test `value && typeof value === "object"` (arrays included),
used by `markSchema` and both synthesizers to reject scalar/null inputs. -/
def jsObjLike : Json → Bool
  | .obj _ => true
  | .arr _ => true
  | _ => false

/-- Property access `j[k]`: `some` iff `j` is an object carrying key `k`
(first occurrence; parsed JSON has unique keys).  On arrays and scalars the
accesses performed by the source return `undefined`, modelled as `none`
(access on `null` throws in JS; the source guards every such access except
the one analysed in `typeFromSchema`, see there). -/
def get : Json → String → Option Json
  | .obj fs, k => go fs k
  | _, _ => none
where go : List (String × Json) → String → Option Json
  | [], _ => none
  | (k', v) :: fs, k => if k' = k then some v else go fs k

/-- Truthy property access: `some v` iff `j[k]` exists and is truthy.
Models the ubiquitous `if (j.k)` / `j.k ? … : …` pattern. -/
def getT (j : Json) (k : String) : Option Json :=
  match j.get k with
  | some v => if truthy v then some v else none
  | none => none

/-- `Object.entries`: fields of an object in insertion order; for an array,
index/element pairs (the source only hits the object case on well-formed
documents). -/
def entriesOf : Json → List (String × Json)
  | .obj fs => fs
  | .arr xs => (xs.enum.map fun (i, x) => (toString i, x))
  | _ => []

/-- `Object.values`. -/
def valuesOf (j : Json) : List Json :=
  (entriesOf j).map Prod.snd

/-- `a || b` on two optional values: the truthy-or used for patterns such
as `schema.properties || {}`. -/
def truthyOr (a b : Option Json) : Option Json :=
  match a with
  | some v => if truthy v then some v else b
  | none => b

/-- The value of `j[k]` when it is an array, else `[]`; models
`Array.isArray(j.k) ? j.k : []`. -/
def arrOr (j : Json) (k : String) : List Json :=
  match j.get k with
  | some (.arr xs) => xs
  | _ => []

/-- `j[k]` when it is an array (models `Array.isArray(j.k)` guards that
skip the branch entirely when the keyword is not an array). -/
def arrGet (j : Json) (k : String) : Option (List Json) :=
  match j.get k with
  | some (.arr xs) => some xs
  | _ => none

end Json

/-- A regex `\w` character. -/
def isWordChar (c : Char) : Bool := c.isAlphanum || c = '_'

/-- Replace every maximal run of non-`\w` characters by a single `_`
(the `n.replace(/[^\w]+/g, "_")` step of `toTypeName`); the boolean flag
records whether the previous character belonged to such a run. -/
def collapseNonWord : Bool → List Char → List Char
  | _, [] => []
  | prevNW, c :: rest =>
    if isWordChar c then c :: collapseNonWord false rest
    else if prevNW then collapseNonWord true rest
    else '_' :: collapseNonWord true rest

/-- `toTypeName` from the source: collapse non-word runs to `_`, then
guard a leading digit with `_` (`.replace(/^([0-9])/, "_$1")`). -/
def toTypeName (n : String) : String :=
  let t := String.mk (collapseNonWord false n.data)
  match t.data with
  | c :: _ => if c.isDigit then "_" ++ t else t
  | [] => t

/-- JS `String(v)` on the scalar values the source stringifies (enum
values, `const`s).  Arrays/objects never reach this in well-formed
documents; their JS renderings are approximated. -/
def jsToString : Json → String
  | .null => "null"
  | .bool b => if b then "true" else "false"
  | .num n => toString n
  | .str s => s
  | .arr _ => ""
  | .obj _ => "[object Object]"

/-- One character of a JSON string literal, escaped as `JSON.stringify`
escapes it (quote, backslash, and the common control characters; other
characters are emitted verbatim). -/
def escapeJsonChar (c : Char) : String :=
  if c = '"' then "\\\""
  else if c = '\\' then "\\\\"
  else if c = '\n' then "\\n"
  else if c = '\t' then "\\t"
  else if c = '\r' then "\\r"
  else String.singleton c

def escapeJsonString (s : String) : String :=
  String.join (s.data.map escapeJsonChar)

mutual

/-- `JSON.stringify` (no pretty-printing, insertion-ordered object keys). -/
def jsonStringify : Json → String
  | .null => "null"
  | .bool b => if b then "true" else "false"
  | .num n => toString n
  | .str s => "\"" ++ escapeJsonString s ++ "\""
  | .arr xs => "[" ++ jsonStringifyList xs ++ "]"
  | .obj fs => "\x7b" ++ jsonStringifyFields fs ++ "\x7d"

def jsonStringifyList : List Json → String
  | [] => ""
  | [x] => jsonStringify x
  | x :: xs => jsonStringify x ++ "," ++ jsonStringifyList xs

def jsonStringifyFields : List (String × Json) → String
  | [] => ""
  | [(k, v)] => "\"" ++ escapeJsonString k ++ "\":" ++ jsonStringify v
  | (k, v) :: fs =>
      "\"" ++ escapeJsonString k ++ "\":" ++ jsonStringify v ++ "," ++
        jsonStringifyFields fs

end

/-- `.replace(/\n/g, ' ')`, used when propagating documentation strings. -/
def replaceNl (s : String) : String :=
  String.mk (s.data.map fun c => if c = '\n' then ' ' else c)

/-- `hay.startsWith(needle)` over character lists. -/
def charListStartsWith : List Char → List Char → Bool
  | _, [] => true
  | [], _ :: _ => false
  | a :: as, b :: bs => a = b && charListStartsWith as bs

/-- `String.prototype.includes` over character lists. -/
def charListIncludes (needle : List Char) : List Char → Bool
  | [] => needle.isEmpty
  | c :: rest => charListStartsWith (c :: rest) needle || charListIncludes needle rest

/-- `toLowerCase()` code point by code point. -/
def lowerString (s : String) : String := String.mk (s.data.map Char.toLower)

/-- `toUpperCase()` code point by code point. -/
def upperString (s : String) : String := String.mk (s.data.map Char.toUpper)

/-- The characters after the last `/` (the trailing path component of a
`$ref`, `ref.split("/").pop()`). -/
def lastPathSegment (s : String) : String :=
  String.mk (go s.data [])
where go : List Char → List Char → List Char
  | [], acc => acc.reverse
  | '/' :: rest, _ => go rest []
  | c :: rest, acc => go rest (c :: acc)

/-- The disambiguation exclusion of `mapEnumForEnum`: the case-insensitive
regex test `/CommandOptionType/i.test(name)`. -/
def genericEnumName (name : String) : Bool :=
  charListIncludes "commandoptiontype".data (lowerString name).data

/-- A canonical Enum Definition, as collected into the source's `enums`
record: parallel value/member-name/description sequences plus the declared
scalar type and documentation string. -/
structure EnumDef where
  values : List Json
  varnames : List String
  descriptions : List Json
  typ : Option Json
  doc : Option Json
deriving Repr, DecidableEq

/-- `openapi.components?.schemas ?? {}`. -/
def componentSchemas (doc : Json) : Json :=
  match (doc.get "components").bind (fun c => c.get "schemas") with
  | some .null => Json.obj []
  | some v => v
  | none => Json.obj []

/-- Default member name for an enum value:
`typeof v === "string" ? v.toUpperCase() : String(v)`. -/
def defaultVarname : Json → String
  | .str s => upperString s
  | v => jsToString v

/-- Member names of an `enum`-encoded definition:
`def["x-enum-varnames"] || def.enum.map(...)`.  Entries of an explicit
`x-enum-varnames` array are strings in any document the generator accepts
(a non-string entry would make the JS `toTypeName` call throw). -/
def enumVarnames (defn : Json) (vs : List Json) : List String :=
  match Json.getT defn "x-enum-varnames" with
  | some (.arr names) => names.map jsToString
  | some _ => []
  | none => vs.map defaultVarname

/-- `def["x-enum-descriptions"] || []` (an array in well-formed documents). -/
def enumDescriptions (defn : Json) : List Json :=
  match Json.getT defn "x-enum-descriptions" with
  | some (.arr ds) => ds
  | _ => []

/-- Member name of a `oneOf`+`const` variant:
`e.title || (typeof e.const === "string" ? e.const.toUpperCase() : String(e.const))`. -/
def oneOfVarname (e : Json) : String :=
  match Json.getT e "title" with
  | some t => jsToString t
  | none =>
    match e.get "const" with
    | some (.str s) => upperString s
    | some v => jsToString v
    | none => "undefined"

/-- The `enum`-array encoding of an enumeration (first branch of the
collection loop); `none` when `def.enum` is missing, non-array or empty. -/
def collectEnumList (defn : Json) : Option EnumDef :=
  match Json.arrGet defn "enum" with
  | some vs =>
    if vs.isEmpty then none
    else some
      { values := vs
        varnames := enumVarnames defn vs
        descriptions := enumDescriptions defn
        typ := defn.get "type"
        doc := Json.truthyOr (defn.get "description") (defn.get "title") }
  | none => none

/-- The `oneOf`-of-`const` encoding (second branch): every variant must be
an object carrying a `const` key (`ent.hasOwnProperty("const")`). -/
def collectEnumOneOf (defn : Json) : Option EnumDef :=
  match Json.arrGet defn "oneOf" with
  | some entries =>
    if entries.isEmpty then none
    else if entries.all (fun e => Json.isObject e && (e.get "const").isSome) then
      some
        { values := entries.map (fun e => (e.get "const").getD Json.null)
          varnames := entries.map oneOfVarname
          descriptions :=
            entries.map (fun e => (Json.getT e "description").getD (Json.str ""))
          typ := defn.get "type"
          doc := Json.truthyOr (defn.get "description") (defn.get "title") }
    else none
  | none => none

/-- The source's `enums` record: scan every named component schema for
either enumeration encoding, preserving document order. -/
def collectEnums (doc : Json) : List (String × EnumDef) :=
  (Json.entriesOf (componentSchemas doc)).filterMap fun (key, defn) =>
    match collectEnumList defn with
    | some e => some (key, e)
    | none => (collectEnumOneOf defn).map fun e => (key, e)

def lookupEnum (enums : List (String × EnumDef)) (name : String) : Option EnumDef :=
  (enums.find? fun p => decide (p.1 = name)).map Prod.snd

/-- The mutable compilation state: the two usage `Set`s plus the marker's
`visited` set.  JS `Set.add` appends a fresh element at the end. -/
structure MarkState where
  usedComponents : List String
  usedEnums : List String
  visited : List Json
deriving Repr, DecidableEq

def MarkState.initial : MarkState := ⟨[], [], []⟩

/-- `Set.add`: append if absent. -/
def addString (x : String) (l : List String) : List String :=
  if x ∈ l then l else l ++ [x]

/-- `markEnumUse(name)`: record the enum as used only if the name is in the
`enums` record. -/
def markEnumUse (enums : List (String × EnumDef)) (name : String)
    (st : MarkState) : MarkState :=
  if (lookupEnum enums name).isSome then
    { st with usedEnums := addString name st.usedEnums }
  else st

/-- `markComponent(name)`: record the component, then `markEnumUse`. -/
def markComponent (enums : List (String × EnumDef)) (name : String)
    (st : MarkState) : MarkState :=
  markEnumUse enums name { st with usedComponents := addString name st.usedComponents }

/-- `resolveRef`: single-segment lookup by trailing path component,
canonicalized through `toTypeName`. -/
def resolveRef (ref : String) : String :=
  toTypeName (lastPathSegment ref)

/-- `resolveParameterRef`: trailing path component looked up (verbatim, no
renaming) in `components.parameters`; `null` when absent. -/
def resolveParameterRef (doc : Json) (ref : String) : Option Json :=
  ((doc.get "components").bind fun c => c.get "parameters").bind fun ps =>
    ps.get (lastPathSegment ref)

/-- `findIndex((v) => v === x)` over enum values (scalars). -/
def findIdxJson (vs : List Json) (v : Json) : Option Nat :=
  vs.findIdx? fun x => decide (x = v)

/-- Member access `e.varnames[idx]!` (indices produced by `findIndex` over
`e.values` are in range whenever the two sequences are parallel, which
holds for every collected definition without a short explicit
`x-enum-varnames` list — on such a malformed list JS would throw). -/
def varnameAt (e : EnumDef) (idx : Nat) : String :=
  e.varnames.getD idx ""

/-- `${toTypeName(name)}.${toTypeName(e.varnames[idx]!)}`. -/
def qualifiedMember (name : String) (e : EnumDef) (idx : Nat) : String :=
  toTypeName name ++ "." ++ toTypeName (varnameAt e idx)

/-- First enum whose full value sequence matches exactly. -/
def findExactEnum : List (String × EnumDef) → List Json → Option String
  | [], _ => none
  | (name, e) :: rest, values =>
    if e.values = values then some name else findExactEnum rest values

/-- Single-literal membership scan with the generic-discriminator
exclusion: an enum whose name matches the pattern is skipped
unconditionally (`continue`). -/
def findSingleLit : List (String × EnumDef) → Json → Option (String × EnumDef × Nat)
  | [], _ => none
  | (name, e) :: rest, val =>
    match findIdxJson e.values val with
    | some idx =>
      if genericEnumName name then findSingleLit rest val
      else some (name, e, idx)
    | none => findSingleLit rest val

/-- `mapEnumForEnum`: exact-sequence match first; otherwise, for a
single-element list, the membership scan with the generic exclusion. -/
def mapEnumForEnum (enums : List (String × EnumDef)) (values : List Json)
    (st : MarkState) : Option String × MarkState :=
  match findExactEnum enums values with
  | some name => (some (toTypeName name), markEnumUse enums name st)
  | none =>
    match values with
    | [val] =>
      match findSingleLit enums val with
      | some (name, e, idx) =>
        (some (qualifiedMember name e idx), markEnumUse enums name st)
      | none => (none, st)
    | _ => (none, st)

/-- Membership scan without any exclusion (the `const` path). -/
def findConstLit : List (String × EnumDef) → Json → Option (String × EnumDef × Nat)
  | [], _ => none
  | (name, e) :: rest, v =>
    match findIdxJson e.values v with
    | some idx => some (name, e, idx)
    | none => findConstLit rest v

/-- `mapEnumForConst`: first enum containing the value, qualified member. -/
def mapEnumForConst (enums : List (String × EnumDef)) (value : Json)
    (st : MarkState) : Option String × MarkState :=
  match findConstLit enums value with
  | some (name, e, idx) =>
    (some (qualifiedMember name e idx), markEnumUse enums name st)
  | none => (none, st)

/-- Loop body of `mapEnumFromAllOf` over the conjuncts. -/
def mapEnumFromAllOfGo (doc : Json) (enums : List (String × EnumDef))
    (values : List Json) : List Json → MarkState → Option String × MarkState
  | [], st => (none, st)
  | entry :: rest, st =>
    match Json.getT entry "$ref" with
    | some (.str r) =>
      let refName := resolveRef r
      let target :=
        ((doc.get "components").bind fun c => c.get "schemas").bind fun s =>
          s.get refName
      let inlineEnum := match target with
        | some t => Json.arrGet t "enum"
        | none => none
      let mappedEnum : Option EnumDef := lookupEnum enums refName
      let candidate : Option (List Json) := match inlineEnum with
        | some vs => some vs
        | none => mappedEnum.map (fun me => me.values)
      match candidate with
      | none => mapEnumFromAllOfGo doc enums values rest st
      | some cvs =>
        if values.all (fun v => cvs.contains v) then
          let st := markEnumUse enums refName st
          match values, mappedEnum with
          | [v], some me =>
            (match findIdxJson me.values v with
             | some idx => (some (qualifiedMember refName me idx), st)
             | none => (some (toTypeName refName), st))
          | _, _ => (some (toTypeName refName), st)
        else mapEnumFromAllOfGo doc enums values rest st
    | _ => mapEnumFromAllOfGo doc enums values rest st

/-- `mapEnumFromAllOf(values, allOf)`: find a conjunct that is a reference
to a schema whose (inline or collected) enum values contain every listed
value; qualified member for a singleton when the reference names a
collected enum. -/
def mapEnumFromAllOf (doc : Json) (enums : List (String × EnumDef))
    (values : List Json) : Json → MarkState → Option String × MarkState
  | .arr entries, st => mapEnumFromAllOfGo doc enums values entries st
  | _, st => (none, st)

def mapEnumFromRefsGo (enums : List (String × EnumDef)) (value : Option Json) :
    List Json → MarkState → Option String × MarkState
  | [], st => (none, st)
  | entry :: rest, st =>
    match Json.getT entry "$ref" with
    | some (.str r) =>
      let refName := resolveRef r
      match lookupEnum enums refName with
      | none => mapEnumFromRefsGo enums value rest st
      | some e =>
        let st := markEnumUse enums refName st
        match value with
        | some v =>
          (match findIdxJson e.values v with
           | some idx => (some (qualifiedMember refName e idx), st)
           | none => (some (toTypeName refName), st))
        | none => (some (toTypeName refName), st)
    | _ => mapEnumFromRefsGo enums value rest st

/-- `mapEnumFromRefs(allOf, value)`: reference-only match against the
collected enum table, ignoring value containment. -/
def mapEnumFromRefs (enums : List (String × EnumDef)) (value : Option Json) :
    Json → MarkState → Option String × MarkState
  | .arr entries, st => mapEnumFromRefsGo enums value entries st
  | _, st => (none, st)

/-- The schema registry lookup `openapi.components?.schemas?.[refName]`
performed when the marker follows a reference. -/
def schemaTarget (doc : Json) (refName : String) : Option Json :=
  ((doc.get "components").bind fun c => c.get "schemas").bind fun sc =>
    sc.get refName

/-- The truthy value of `schema.properties`, flattened to the list its
`Object.values` traversal walks (empty when absent/falsy). -/
def propsValues (s : Json) : List Json :=
  match Json.getT s "properties" with
  | some props => Json.valuesOf props
  | none => []

/-- `schema.additionalProperties` when truthy *and* an object (the only
case the marker recurses into). -/
def apSubschema (s : Json) : Option Json :=
  match Json.getT s "additionalProperties" with
  | some ap => if Json.isObject ap then some ap else none
  | none => none

mutual

/-- `markSchema`: the reachability marker.  Marks a reference's target name
and walks the target; otherwise recurses into the composition keywords,
`items`, `properties` values, an object-valued `additionalProperties`, and
`not`/`then`/`else`.  Each node enters `visited` at most once; the fuel
strictly decreases on every call and is never exhausted for a fuel larger
than the (finite) document size.  Malformed-document collapse: on a truthy
non-string `$ref` JS would throw inside `resolveRef` (`ref.split` on a
non-string); here (and in both synthesizers and the parameter loop) such a
node contributes nothing. -/
def markSchema (doc : Json) (enums : List (String × EnumDef)) :
    Nat → Json → MarkState → MarkState
  | 0, _, st => st
  | fuel + 1, s, st =>
    if ¬ Json.jsObjLike s then st
    else if s ∈ st.visited then st
    else
      let st := { st with visited := s :: st.visited }
      match Json.getT s "$ref" with
      | some (.str r) =>
        let refName := resolveRef r
        let st := markComponent enums refName st
        (match schemaTarget doc refName with
         | some target =>
           if Json.truthy target then markSchema doc enums fuel target st else st
         | none => st)
      | some _ => st
      | none =>
        let st := markList doc enums fuel (Json.arrOr s "oneOf") st
        let st := markList doc enums fuel (Json.arrOr s "anyOf") st
        let st := markList doc enums fuel (Json.arrOr s "allOf") st
        let st := markOptSchema doc enums fuel (Json.getT s "items") st
        let st := markList doc enums fuel (propsValues s) st
        let st := markOptSchema doc enums fuel (apSubschema s) st
        let st := markOptSchema doc enums fuel (Json.getT s "not") st
        let st := markOptSchema doc enums fuel (Json.getT s "then") st
        markOptSchema doc enums fuel (Json.getT s "else") st

/-- `xs.forEach(markSchema)`. -/
def markList (doc : Json) (enums : List (String × EnumDef)) :
    Nat → List Json → MarkState → MarkState
  | 0, _, st => st
  | _ + 1, [], st => st
  | fuel + 1, x :: xs, st =>
    markList doc enums fuel xs (markSchema doc enums fuel x st)

/-- An `if (schema.k) markSchema(schema.k)` step. -/
def markOptSchema (doc : Json) (enums : List (String × EnumDef)) :
    Nat → Option Json → MarkState → MarkState
  | 0, _, st => st
  | _ + 1, none, st => st
  | fuel + 1, some x, st => markSchema doc enums fuel x st

end

/-- The fallback loop of `markContent`: walk every content entry carrying a
truthy `schema`. -/
def markContentAll (doc : Json) (enums : List (String × EnumDef)) (fuel : Nat)
    (content : Json) (st : MarkState) : MarkState :=
  (Json.valuesOf content).foldl
    (fun st v =>
      if Json.truthy v then
        match Json.getT v "schema" with
        | some sch => markSchema doc enums fuel sch st
        | none => st
      else st) st

/-- `markContent`: walk the JSON (or merge-patch JSON) entry's schema when
one exists, else every entry's schema. -/
def markContent (doc : Json) (enums : List (String × EnumDef)) (fuel : Nat)
    (content : Json) (st : MarkState) : MarkState :=
  if ¬ Json.isObject content then st
  else
    match Json.truthyOr (content.get "application/json")
        (content.get "application/merge-patch+json") with
    | some j =>
      (match Json.getT j "schema" with
       | some sch => markSchema doc enums fuel sch st
       | none => markContentAll doc enums fuel content st)
    | none => markContentAll doc enums fuel content st

/-- `openapi.paths || {}`. -/
def pathsObj (doc : Json) : Json :=
  match Json.getT doc "paths" with
  | some p => p
  | none => Json.obj []

/-- `Array.isArray(methods?.parameters) ? methods.parameters : []` —
the route-level parameter array, shared by the marker and the projector. -/
def inheritedParams (methods : Json) : List Json :=
  match methods.get "parameters" with
  | some (.arr ps) => ps
  | _ => []

/-- `Array.isArray(op.parameters) ? op.parameters : []`. -/
def opOwnParams (op : Json) : List Json :=
  match Json.arrGet op "parameters" with
  | some ps => ps
  | none => []

/-- The marker's per-parameter step: `if (p.schema) markSchema(p.schema)`
(`p?.schema` in the route-level loop).  `$ref` parameters carry no truthy
`schema` property and are therefore skipped entirely by the marker.
Malformed-document collapse: on a `null` entry of `op.parameters` the JS
`p.schema` access throws (line 635); this model skips such an entry, as
the `p?.schema` route-level loop does. -/
def markParamStep (doc : Json) (enums : List (String × EnumDef)) (fuel : Nat)
    (st : MarkState) (p : Json) : MarkState :=
  match Json.getT p "schema" with
  | some sch => markSchema doc enums fuel sch st
  | none => st

/-- `if (op.requestBody && op.requestBody.content)
markContent(op.requestBody.content)`. -/
def markRbStep (doc : Json) (enums : List (String × EnumDef)) (fuel : Nat)
    (op : Json) (st : MarkState) : MarkState :=
  match Json.getT op "requestBody" with
  | some rb =>
    (match Json.getT rb "content" with
     | some c => markContent doc enums fuel c st
     | none => st)
  | none => st

/-- The per-response step of the marker: `if (resp && resp.content)
markContent(resp.content)`. -/
def markRespItem (doc : Json) (enums : List (String × EnumDef)) (fuel : Nat)
    (st : MarkState) (r : Json) : MarkState :=
  if Json.truthy r then
    match Json.getT r "content" with
    | some c => markContent doc enums fuel c st
    | none => st
  else st

/-- `if (op.responses && isObject(op.responses)) for (const resp of …)`. -/
def markRespStep (doc : Json) (enums : List (String × EnumDef)) (fuel : Nat)
    (op : Json) (st : MarkState) : MarkState :=
  match Json.getT op "responses" with
  | some resp =>
    if Json.isObject resp then
      (Json.valuesOf resp).foldl (markRespItem doc enums fuel) st
    else st
  | none => st

/-- One iteration of the marker's inner operation loop (`for (const op of
Object.values(methods))`): non-objects are skipped; route-level parameter
schemas are walked, then the operation's own parameter schemas, request
body content, and response contents. -/
def markOp (doc : Json) (enums : List (String × EnumDef)) (fuel : Nat)
    (pathParams : List Json) (st : MarkState) (op : Json) : MarkState :=
  if ¬ Json.jsObjLike op then st
  else
    markRespStep doc enums fuel op
      (markRbStep doc enums fuel op
        ((opOwnParams op).foldl (markParamStep doc enums fuel)
          (pathParams.foldl (markParamStep doc enums fuel) st)))

/-- One iteration of the marker's route loop: extract the route-level
`parameters` array, then process every value of the methods object. -/
def markMethods (doc : Json) (enums : List (String × EnumDef)) (fuel : Nat)
    (st : MarkState) (methods : Json) : MarkState :=
  (Json.valuesOf methods).foldl
    (markOp doc enums fuel (inheritedParams methods)) st

/-- The complete reachability-marking pass over `openapi.paths`. -/
def markAllPaths (doc : Json) (enums : List (String × EnumDef)) (fuel : Nat)
    (st : MarkState) : MarkState :=
  (Json.valuesOf (pathsObj doc)).foldl (markMethods doc enums fuel) st

/-- `z.unknown()` with the PURE annotation the generator attaches. -/
def zUnknown : String := "/* @__PURE__ */ z.unknown()"

/-- `zPrimitive`. -/
def zPrimitive : Json → String
  | .str "string" => "/* @__PURE__ */ z.string()"
  | .str "number" => "/* @__PURE__ */ z.number()"
  | .str "integer" => "/* @__PURE__ */ z.number()"
  | .str "boolean" => "/* @__PURE__ */ z.boolean()"
  | .str "null" => "/* @__PURE__ */ z.null()"
  | _ => "/* @__PURE__ */ z.unknown()"

/-- `applyChecks`. -/
def applyChecks (expr : String) (checks : List String) : String :=
  if checks.isEmpty then expr
  else expr ++ ".check(" ++ String.intercalate ", " checks ++ ")"

/-- `applyStringConstraints`: `minLength`/`maxLength`/`pattern`. -/
def applyStringConstraints (expr : String) (schema : Json) : String :=
  let checks :=
    (match schema.get "minLength" with
     | some (.num n) => ["/* @__PURE__ */ z.minLength(" ++ toString n ++ ")"]
     | _ => []) ++
    (match schema.get "maxLength" with
     | some (.num n) => ["/* @__PURE__ */ z.maxLength(" ++ toString n ++ ")"]
     | _ => []) ++
    (match schema.get "pattern" with
     | some (.str p) =>
       ["/* @__PURE__ */ z.regex(/* @__PURE__ */ new RegExp(" ++
         jsonStringify (Json.str p) ++ "))"]
     | _ => [])
  applyChecks expr checks

/-- `applyNumberConstraints`. -/
def applyNumberConstraints (expr : String) (schema : Json) : String :=
  let checks :=
    (match schema.get "multipleOf" with
     | some (.num n) => ["/* @__PURE__ */ z.multipleOf(" ++ toString n ++ ")"]
     | _ => []) ++
    (match schema.get "minimum" with
     | some (.num n) => ["/* @__PURE__ */ z.minimum(" ++ toString n ++ ")"]
     | _ => []) ++
    (match schema.get "maximum" with
     | some (.num n) => ["/* @__PURE__ */ z.maximum(" ++ toString n ++ ")"]
     | _ => []) ++
    (match schema.get "exclusiveMinimum" with
     | some (.num n) => ["/* @__PURE__ */ z.gt(" ++ toString n ++ ")"]
     | _ => []) ++
    (match schema.get "exclusiveMaximum" with
     | some (.num n) => ["/* @__PURE__ */ z.lt(" ++ toString n ++ ")"]
     | _ => [])
  applyChecks expr checks

/-- `buildNumberBase`. -/
def buildNumberBase (schema : Json) : String :=
  if schema.get "format" = some (.str "int32") then "/* @__PURE__ */ z.int32()"
  else if schema.get "format" = some (.str "uint32") then "/* @__PURE__ */ z.uint32()"
  else "/* @__PURE__ */ z.number()"

/-- `applyArrayConstraints`: `minItems`/`maxItems` (array-item uniqueness is
deliberately not enforced, as the source notes). -/
def applyArrayConstraints (expr : String) (schema : Json) : String :=
  let checks :=
    (match schema.get "minItems" with
     | some (.num n) => ["/* @__PURE__ */ z.minLength(" ++ toString n ++ ")"]
     | _ => []) ++
    (match schema.get "maxItems" with
     | some (.num n) => ["/* @__PURE__ */ z.maxLength(" ++ toString n ++ ")"]
     | _ => [])
  applyChecks expr checks

/-- `zEnumSchema`: `z.enum` for all-string value lists, else a literal
union. -/
def zEnumSchema (values : List Json) : String :=
  if values.all (fun v => match v with | .str _ => true | _ => false) then
    "/* @__PURE__ */ z.enum([" ++
      String.intercalate ", " (values.map jsonStringify) ++ "])"
  else
    "/* @__PURE__ */ z.union([" ++
      String.intercalate ", "
        (values.map fun v =>
          "/* @__PURE__ */ z.literal(" ++ jsonStringify v ++ ")") ++ "])"

/-- JS spread `{ ...o, k: v }`: replace the value at an existing key in
place (parsed JSON has unique keys), appending when absent. -/
def setFieldGo : List (String × Json) → String → Json → List (String × Json)
  | [], k, v => [(k, v)]
  | (k', v') :: fs, k, v =>
    if k' = k then (k, v) :: fs else (k', v') :: setFieldGo fs k v

def Json.setField : Json → String → Json → Json
  | .obj fs, k, v => .obj (setFieldGo fs k v)
  | j, _, _ => j

mutual

/-- `typeFromSchema`: Schema Node → TypeScript type expression, threading
the usage-marking state.  The result is `none` exactly when the JS
function throws: the single unguarded property access
`propSchema.nullable` on a `null` property schema (see `typeProps`);
every other input renders.  The identity-keyed `schemaCache` memo is
omitted (it changes neither the rendered string nor the final sets, see
the module comment). -/
def typeFromSchema (doc : Json) (enums : List (String × EnumDef)) :
    Nat → Json → MarkState → Option (String × MarkState)
  | 0, _, st => some ("unknown", st)
  | fuel + 1, s, st =>
    if ¬ Json.jsObjLike s then some ("any", st)
    else
      match Json.getT s "$ref" with
      | some (.str r) =>
        let t := resolveRef r
        some (t, markComponent enums t st)
      | some _ => some ("unknown", st)
      | none =>
        match Json.arrGet s "enum" with
        | some vs =>
          let pE := mapEnumForEnum enums vs st
          (match pE.1 with
           | some m => some (m, pE.2)
           | none =>
             let pA := match Json.getT s "allOf" with
               | some a => mapEnumFromAllOf doc enums vs a pE.2
               | none => ((none : Option String), pE.2)
             match pA.1 with
             | some m => some (m, pA.2)
             | none =>
               some (String.intercalate " | " (vs.map jsonStringify), pA.2))
        | none =>
          match s.get "const" with
          | some c =>
            let pC := mapEnumForConst enums c st
            (match pC.1 with
             | some m => some (m, pC.2)
             | none =>
               let pA := match Json.getT s "allOf" with
                 | some a => mapEnumFromAllOf doc enums [c] a pC.2
                 | none => ((none : Option String), pC.2)
               match pA.1 with
               | some m => some (m, pA.2)
               | none => some (jsonStringify c, pA.2))
          | none =>
            match Json.arrGet s "oneOf" with
            | some os => typeUnionList doc enums fuel s os " | " st
            | none =>
            match Json.arrGet s "anyOf" with
            | some an => typeUnionList doc enums fuel s an " | " st
            | none =>
            match Json.arrGet s "allOf" with
            | some al => typeUnionList doc enums fuel s al " & " st
            | none =>
            if s.get "type" = some (.str "array") then
              let items := match Json.getT s "items" with
                | some it => it
                | none => Json.obj []
              match typeFromSchema doc enums fuel items st with
              | some p =>
                some ((if p.1.contains '|' then "(" ++ p.1 ++ ")[]"
                       else p.1 ++ "[]"), p.2)
              | none => none
            else if s.get "type" = some (.str "object") ∨
                (Json.getT s "properties").isSome then
              let props := match Json.getT s "properties" with
                | some p => p
                | none => Json.obj []
              let required : List Json := match s.get "required" with
                | some (.arr xs) => xs
                | _ => []
              match typeProps doc enums fuel required (Json.entriesOf props) st with
              | none => none
              | some pr =>
                match typeApStep doc enums fuel s pr.2 with
                | none => none
                | some pa =>
                  some ("\x7b\n" ++ pr.1 ++ pa.1 ++ "\x7d", pa.2)
            else
              match s.get "type" with
              | some (.arr ts) =>
                (match typeMulti doc enums fuel s ts st with
                 | some p =>
                   some (String.intercalate " | " p.1, p.2)
                 | none => none)
              | some (.str "string") => some ("string", st)
              | some (.str "integer") => some ("number", st)
              | some (.str "number") => some ("number", st)
              | some (.str "boolean") => some ("boolean", st)
              | some (.str "null") => some ("null", st)
              | some (.str "object") => some ("Record<string, unknown>", st)
              | _ => some ("unknown", st)

/-- The `additionalProperties` tail of the object branch: a boolean `true`
contributes an open `unknown` index line, an object schema contributes a
typed index line (recursing), anything else contributes nothing. -/
def typeApStep (doc : Json) (enums : List (String × EnumDef)) :
    Nat → Json → MarkState → Option (String × MarkState)
  | 0, _, st => some ("", st)
  | fuel + 1, s, st =>
    match Json.getT s "additionalProperties" with
    | some (.bool true) => some ("  [key: string]: unknown;\n", st)
    | some ap =>
      if Json.isObject ap then
        match typeFromSchema doc enums fuel ap st with
        | some p => some ("  [key: string]: " ++ p.1 ++ ";\n", p.2)
        | none => none
      else some ("", st)
    | none => some ("", st)

/-- The `oneOf`/`anyOf`/`allOf` branches: an empty list degrades to the
node's own `type` (re-entering the synthesizer on a fresh
`{ type: schema.type }` node) or `"unknown"`; a non-empty list joins the
recursively synthesized branches with the separator. -/
def typeUnionList (doc : Json) (enums : List (String × EnumDef)) :
    Nat → Json → List Json → String → MarkState → Option (String × MarkState)
  | 0, _, _, _, st => some ("unknown", st)
  | fuel + 1, s, branches, sep, st =>
    if branches.isEmpty then
      match Json.getT s "type" with
      | some tv => typeFromSchema doc enums fuel (Json.obj [("type", tv)]) st
      | none => some ("unknown", st)
    else
      match typeList doc enums fuel branches st with
      | some p => some (String.intercalate sep p.1, p.2)
      | none => none

/-- `branches.map((s) => typeFromSchema(s))`, threading state left to
right. -/
def typeList (doc : Json) (enums : List (String × EnumDef)) :
    Nat → List Json → MarkState → Option (List String × MarkState)
  | 0, _, st => some ([], st)
  | _ + 1, [], st => some ([], st)
  | fuel + 1, x :: xs, st =>
    match typeFromSchema doc enums fuel x st with
    | some p =>
      (match typeList doc enums fuel xs p.2 with
       | some q => some (p.1 :: q.1, q.2)
       | none => none)
    | none => none

/-- The per-property type chooser of the object branch (the `tsType`
if-chain of the source): single-literal `enum`/`const` values carrying an
`allOf` composition are mapped through the Enum Unifier first, and the
discriminator-named properties (`type`/`component_type`/`trigger_type`)
additionally receive the eager `mapEnumFromAllOf`/`mapEnumFromRefs` pair
followed by the short-circuited `mapEnumForConst`/`mapEnumForEnum`
fallbacks; otherwise plain recursive synthesis. -/
def propTypeStep (doc : Json) (enums : List (String × EnumDef)) :
    Nat → String → Json → MarkState → Option (String × MarkState)
  | 0, _, _, st => some ("unknown", st)
  | fuel + 1, propName, ps, st =>
    let isTypeLike := propName == "type" || propName == "component_type" ||
      propName == "trigger_type"
    let singletonEnum : Bool := match Json.arrGet ps "enum" with
      | some vs => vs.length == 1
      | none => false
    if Json.truthy ps && singletonEnum && (Json.getT ps "allOf").isSome then
      let pA := mapEnumFromAllOf doc enums ((Json.arrGet ps "enum").getD [])
        ((Json.getT ps "allOf").getD Json.null) st
      (match pA.1 with
       | some m => some (m, pA.2)
       | none => typeFromSchema doc enums fuel ps pA.2)
    else if Json.truthy ps && (ps.get "const").isSome &&
        (Json.getT ps "allOf").isSome then
      let pA := mapEnumFromAllOf doc enums [(ps.get "const").getD Json.null]
        ((Json.getT ps "allOf").getD Json.null) st
      (match pA.1 with
       | some m => some (m, pA.2)
       | none => typeFromSchema doc enums fuel ps pA.2)
    else if isTypeLike && singletonEnum then
      let vs := (Json.arrGet ps "enum").getD []
      let v0 := vs.headD Json.null
      let aOf := match Json.getT ps "allOf" with
        | some a => a
        | none => Json.arr []
      let pAll := mapEnumFromAllOf doc enums vs aOf st
      let pRef := mapEnumFromRefs enums (some v0) aOf pAll.2
      (match pAll.1 with
       | some m => some (m, pRef.2)
       | none =>
         match pRef.1 with
         | some m => some (m, pRef.2)
         | none =>
           let pConst := mapEnumForConst enums v0 pRef.2
           match pConst.1 with
           | some m => some (m, pConst.2)
           | none =>
             let pEnum := mapEnumForEnum enums vs pConst.2
             match pEnum.1 with
             | some m => some (m, pEnum.2)
             | none => typeFromSchema doc enums fuel ps pEnum.2)
    else if isTypeLike && (ps.get "const").isSome then
      let c := (ps.get "const").getD Json.null
      let aOf := match Json.getT ps "allOf" with
        | some a => a
        | none => Json.arr []
      let pAll := mapEnumFromAllOf doc enums [c] aOf st
      let pRef := mapEnumFromRefs enums (some c) aOf pAll.2
      (match pAll.1 with
       | some m => some (m, pRef.2)
       | none =>
         match pRef.1 with
         | some m => some (m, pRef.2)
         | none =>
           let pConst := mapEnumForConst enums c pRef.2
           match pConst.1 with
           | some m => some (m, pConst.2)
           | none => typeFromSchema doc enums fuel ps pConst.2)
    else typeFromSchema doc enums fuel ps st

/-- The property loop of the object branch, rendering one
`  name?: T;` line per property.  The access `propSchema.nullable` is
performed on the raw property value after the type is computed: a `null`
property schema makes the JS code throw, modelled as `none`. -/
def typeProps (doc : Json) (enums : List (String × EnumDef)) :
    Nat → List Json → List (String × Json) → MarkState →
    Option (String × MarkState)
  | 0, _, _, st => some ("", st)
  | _ + 1, _, [], st => some ("", st)
  | fuel + 1, required, (propName, ps) :: rest, st =>
    match propTypeStep doc enums fuel propName ps st with
    | none => none
    | some pt =>
      let optional := if required.contains (Json.str propName) then "" else "?"
      match ps with
      | .null => none
      | _ =>
        let nullable := if (Json.getT ps "nullable").isSome then " | null" else ""
        let docLine := match Json.truthyOr (ps.get "description")
            (ps.get "title") with
          | some d =>
            if Json.truthy d then
              "  /** " ++ replaceNl (jsToString d) ++ " */\n"
            else ""
          | none => ""
        let line := docLine ++ "  " ++ propName ++ optional ++ ": " ++ pt.1 ++
          nullable ++ ";\n"
        match typeProps doc enums fuel required rest pt.2 with
        | some q => some (line ++ q.1, q.2)
        | none => none

/-- The multi-valued `type` branch (e.g. `["integer","null"]`): per-branch
primitive/array/object renderings. -/
def typeMulti (doc : Json) (enums : List (String × EnumDef)) :
    Nat → Json → List Json → MarkState → Option (List String × MarkState)
  | 0, _, _, st => some ([], st)
  | _ + 1, _, [], st => some ([], st)
  | fuel + 1, s, t :: ts, st =>
    match typeMultiStep doc enums fuel s t st with
    | none => none
    | some p =>
      match typeMulti doc enums fuel s ts p.2 with
      | some q => some (p.1 :: q.1, q.2)
      | none => none

/-- One branch of the multi-valued `type` rendering (the `switch` inside
the source's `schema.type.map`). -/
def typeMultiStep (doc : Json) (enums : List (String × EnumDef)) :
    Nat → Json → Json → MarkState → Option (String × MarkState)
  | 0, _, _, st => some ("unknown", st)
  | fuel + 1, s, t, st =>
    match t with
    | .str "string" => some ("string", st)
    | .str "integer" => some ("number", st)
    | .str "number" => some ("number", st)
    | .str "boolean" => some ("boolean", st)
    | .str "null" => some ("null", st)
    | .str "array" =>
      let items := match Json.getT s "items" with
        | some it => it
        | none => Json.obj []
      (match typeFromSchema doc enums fuel items st with
       | some p =>
         some ((if p.1.contains '|' then "(" ++ p.1 ++ ")[]"
                else p.1 ++ "[]"), p.2)
       | none => none)
    | .str "object" =>
      typeFromSchema doc enums fuel (s.setField "type" (Json.str "object")) st
    | _ => some ("unknown", st)

end

mutual

/-- `zodFromSchema`: the validator synthesizer, mirroring
`typeFromSchema`'s rule structure (with its own branch order: the
multi-valued `type` union precedes the array/object branches here).
References render as deferred `z.lazy` bindings.  Unlike the type
synthesizer this function is total: its one `nullable` access is guarded
(`v && v.nullable`). -/
def zodFromSchema (doc : Json) (enums : List (String × EnumDef)) :
    Nat → Json → MarkState → String × MarkState
  | 0, _, st => (zUnknown, st)
  | fuel + 1, s, st =>
    if ¬ Json.jsObjLike s then (zUnknown, st)
    else
      match Json.getT s "$ref" with
      | some (.str r) =>
        let t := resolveRef r
        ("/* @__PURE__ */ z.lazy(() => " ++ t ++ "Schema)",
          markComponent enums t st)
      | some _ => (zUnknown, st)
      | none =>
        match Json.arrGet s "enum" with
        | some vs => (if vs.isEmpty then zUnknown else zEnumSchema vs, st)
        | none =>
          match s.get "const" with
          | some c => ("/* @__PURE__ */ z.literal(" ++ jsonStringify c ++ ")", st)
          | none =>
            match Json.arrGet s "oneOf" with
            | some os => zodUnionList doc enums fuel s os st
            | none =>
            match Json.arrGet s "anyOf" with
            | some an => zodUnionList doc enums fuel s an st
            | none =>
            match Json.arrGet s "allOf" with
            | some al =>
              if al.isEmpty then
                (match Json.getT s "type" with
                 | some tv => (zPrimitive tv, st)
                 | none => ("/* @__PURE__ */ z.undefined()", st))
              else
                let p := zodList doc enums fuel al st
                ("/* @__PURE__ */ z.intersection(" ++
                   String.intercalate ", " p.1 ++ ")", p.2)
            | none =>
            match s.get "type" with
            | some (.arr ts) =>
              let p := zodMulti doc enums fuel s ts st
              ("/* @__PURE__ */ z.union([" ++ String.intercalate ", " p.1 ++ "])",
                p.2)
            | _ =>
              if s.get "type" = some (.str "array") then
                let items := match Json.getT s "items" with
                  | some it => it
                  | none => Json.obj []
                let p := zodFromSchema doc enums fuel items st
                (applyArrayConstraints
                  ("/* @__PURE__ */ z.array(" ++ p.1 ++ ")") s, p.2)
              else if s.get "type" = some (.str "object") ∨
                  (Json.getT s "properties").isSome then
                let props := match Json.getT s "properties" with
                  | some p => p
                  | none => Json.obj []
                let ep := zodProps doc enums fuel (Json.entriesOf props) st
                let entries := ep.1
                let apPair : Option String × MarkState :=
                  match s.get "additionalProperties" with
                  | some (.bool true) =>
                    (some "/* @__PURE__ */ z.record(/* @__PURE__ */ z.unknown())",
                      ep.2)
                  | some a =>
                    if Json.isObject a then
                      let pz := zodFromSchema doc enums fuel a ep.2
                      (some ("/* @__PURE__ */ z.record(/* @__PURE__ */ z.string(), " ++
                        pz.1 ++ ")"), pz.2)
                    else (none, ep.2)
                  | none => (none, ep.2)
                let body := if entries.isEmpty then "\x7b\x7d"
                  else "\x7b " ++ String.intercalate ", " entries ++ " \x7d"
                let baseObj := if (Json.getT s "required").isSome then
                    "/* @__PURE__ */ z.strictObject(" ++ body ++ ")"
                  else "/* @__PURE__ */ z.object(" ++ body ++ ")"
                let objChecks :=
                  (match s.get "minProperties" with
                   | some (.num n) =>
                     ["/* @__PURE__ */ z.minLength(" ++ toString n ++ ")"]
                   | _ => []) ++
                  (match s.get "maxProperties" with
                   | some (.num n) =>
                     ["/* @__PURE__ */ z.maxLength(" ++ toString n ++ ")"]
                   | _ => [])
                let baseObj := applyChecks baseObj objChecks
                (match apPair.1 with
                 | some apStr =>
                   if entries.isEmpty then (apStr, apPair.2)
                   else ("/* @__PURE__ */ z.intersection(" ++ baseObj ++ ", " ++
                     apStr ++ ")", apPair.2)
                 | none => (baseObj, apPair.2))
              else if s.get "type" = some (.str "string") then
                let str0 := applyStringConstraints "/* @__PURE__ */ z.string()" s
                let str1 :=
                  if s.get "format" = some (.str "email") then
                    str0 ++ ".check(/* @__PURE__ */ z.email())"
                  else if s.get "format" = some (.str "uri") ∨
                      s.get "format" = some (.str "url") then
                    str0 ++ ".check(/* @__PURE__ */ z.url())"
                  else if s.get "format" = some (.str "uuid") then
                    str0 ++ ".check(/* @__PURE__ */ z.uuid())"
                  else if s.get "format" = some (.str "date-time") then
                    str0 ++ ".check(/* @__PURE__ */ z.iso.datetime())"
                  else str0
                (str1, st)
              else if s.get "type" = some (.str "number") ∨
                  s.get "type" = some (.str "integer") then
                (applyNumberConstraints (buildNumberBase s) s, st)
              else
                match Json.getT s "type" with
                | some tv => (zPrimitive tv, st)
                | none => (zUnknown, st)

/-- The `oneOf`/`anyOf` branches of the validator synthesizer. -/
def zodUnionList (doc : Json) (enums : List (String × EnumDef)) :
    Nat → Json → List Json → MarkState → String × MarkState
  | 0, _, _, st => (zUnknown, st)
  | fuel + 1, s, branches, st =>
    if branches.isEmpty then
      (match Json.getT s "type" with
       | some tv => (zPrimitive tv, st)
       | none => ("/* @__PURE__ */ z.undefined()", st))
    else
      let p := zodList doc enums fuel branches st
      ("/* @__PURE__ */ z.union([" ++ String.intercalate ", " p.1 ++ "])", p.2)

def zodList (doc : Json) (enums : List (String × EnumDef)) :
    Nat → List Json → MarkState → List String × MarkState
  | 0, _, st => ([], st)
  | _ + 1, [], st => ([], st)
  | fuel + 1, x :: xs, st =>
    let p := zodFromSchema doc enums fuel x st
    let q := zodList doc enums fuel xs p.2
    (p.1 :: q.1, q.2)

/-- Property entries of the validator's object branch; the `nullable`
access here is guarded by the truthiness of the property value. -/
def zodProps (doc : Json) (enums : List (String × EnumDef)) :
    Nat → List (String × Json) → MarkState → List String × MarkState
  | 0, _, st => ([], st)
  | _ + 1, [], st => ([], st)
  | fuel + 1, (k, v) :: rest, st =>
    let p := zodFromSchema doc enums fuel v st
    let base := jsonStringify (Json.str k) ++ ": " ++ p.1
    let entry := if Json.truthy v && (Json.getT v "nullable").isSome then
        base ++ ".nullable()"
      else base
    let q := zodProps doc enums fuel rest p.2
    (entry :: q.1, q.2)

/-- The multi-valued `type` branch of the validator synthesizer. -/
def zodMulti (doc : Json) (enums : List (String × EnumDef)) :
    Nat → Json → List Json → MarkState → List String × MarkState
  | 0, _, _, st => ([], st)
  | _ + 1, _, [], st => ([], st)
  | fuel + 1, s, t :: ts, st =>
    let p := if t = Json.str "null" then ("/* @__PURE__ */ z.null()", st)
      else zodFromSchema doc enums fuel (s.setField "type" t) st
    let q := zodMulti doc enums fuel s ts p.2
    (p.1 :: q.1, q.2)

end

/-- The fixed content-type preference order of `pickContentType`. -/
def pickOrder : List String :=
  ["application/json", "application/merge-patch+json", "multipart/form-data",
    "application/x-www-form-urlencoded", "image/png"]

/-- `content[ct]`'s schema when the entry exists, is truthy and carries a
truthy `schema` (`entry && entry.schema`). -/
def hasEntrySchema (content : Json) (ct : String) : Option Json :=
  match Json.getT content ct with
  | some entry => Json.getT entry "schema"
  | none => none

/-- The schema (and its content type) that `pickContentType` renders:
first match along the fixed preference order, then the first document-order
entry carrying a schema. -/
def pickSchema (content : Json) : Option (Json × String) :=
  match pickOrder.findSome?
      (fun ct => (hasEntrySchema content ct).map fun sch => (sch, ct)) with
  | some r => some r
  | none =>
    (Json.entriesOf content).findSome? fun (ct, entry) =>
      if Json.truthy entry then
        (Json.getT entry "schema").map fun sch => (sch, ct)
      else none

/-- `pickContentType`: `(type, contentType)` for a request-body/response
content map; `("unknown","unknown")` when no entry carries a schema. -/
def pickContentType (doc : Json) (enums : List (String × EnumDef)) (fuel : Nat)
    (content : Json) (st : MarkState) : Option ((String × String) × MarkState) :=
  if ¬ Json.isObject content then some (("unknown", "unknown"), st)
  else
    match pickSchema content with
    | some (sch, ct) =>
      (match typeFromSchema doc enums fuel sch st with
       | some (t, st₁) => some ((t, ct), st₁)
       | none => none)
    | none => some (("unknown", "unknown"), st)

/-- One collected parameter record: `{ name: p.name, type: t,
required: p.required }` (raw property values). -/
structure ParamEntry where
  name : Option Json
  type : String
  required : Option Json
deriving Repr, DecidableEq

/-- The per-location parameter record `paramGroups`. -/
structure ParamGroups where
  path : List ParamEntry
  query : List ParamEntry
  header : List ParamEntry
  cookie : List ParamEntry
deriving Repr, DecidableEq

def ParamGroups.empty : ParamGroups := ⟨[], [], [], []⟩

/-- `paramGroups[loc]?.push(e)`: parameters with an unrecognized location
are silently dropped by the optional chain. -/
def ParamGroups.push (g : ParamGroups) (loc : String) (e : ParamEntry) :
    ParamGroups :=
  if loc = "path" then { g with path := g.path ++ [e] }
  else if loc = "query" then { g with query := g.query ++ [e] }
  else if loc = "header" then { g with header := g.header ++ [e] }
  else if loc = "cookie" then { g with cookie := g.cookie ++ [e] }
  else g

def ParamGroups.group (g : ParamGroups) : String → List ParamEntry
  | "path" => g.path
  | "query" => g.query
  | "header" => g.header
  | "cookie" => g.cookie
  | _ => []

/-- `collectParam`: skip falsy parameters; the parameter's schema is
`p.schema || (p.content && Object.values(p.content)[0]?.schema)`; the
declared location defaults to `path` when falsy (a truthy non-string
location also indexes no group and is dropped). -/
def collectParam (doc : Json) (enums : List (String × EnumDef)) (fuel : Nat)
    (acc : ParamGroups × MarkState) (p : Json) :
    Option (ParamGroups × MarkState) :=
  if ¬ Json.truthy p then some acc
  else
    let s2 : Option Json := match Json.getT p "schema" with
      | some v => some v
      | none =>
        match Json.getT p "content" with
        | some c => ((Json.valuesOf c).head?).bind fun v => v.get "schema"
        | none => none
    let tRes : Option (String × MarkState) := match s2 with
      | some sch =>
        if Json.truthy sch then typeFromSchema doc enums fuel sch acc.2
        else some ("unknown", acc.2)
      | none => some ("unknown", acc.2)
    match tRes with
    | none => none
    | some (t, st₁) =>
      let loc := match Json.getT p "in" with
        | some (.str l) => l
        | some _ => "__nonstring__"
        | none => "path"
      some (acc.1.push loc ⟨p.get "name", t, p.get "required"⟩, st₁)

/-- The merged-parameter loop: `$ref` parameters are resolved against
`components.parameters` (unresolvable or falsy resolutions are skipped),
inline parameters are collected directly. -/
def paramsFold (doc : Json) (enums : List (String × EnumDef)) (fuel : Nat) :
    List Json → ParamGroups × MarkState → Option (ParamGroups × MarkState)
  | [], acc => some acc
  | p :: ps, acc =>
    let step : Option (ParamGroups × MarkState) :=
      match Json.getT p "$ref" with
      | some (.str r) =>
        (match resolveParameterRef doc r with
         | some resolved =>
           if Json.truthy resolved then collectParam doc enums fuel acc resolved
           else some acc
         | none => some acc)
      | some _ => some acc
      | none => collectParam doc enums fuel acc p
    match step with
    | none => none
    | some acc' => paramsFold doc enums fuel ps acc'

/-- Route-level parameters concatenated with method-level ones
(`[...inheritedParams, ...op.parameters]`), collected into groups. -/
def buildParamGroups (doc : Json) (enums : List (String × EnumDef))
    (fuel : Nat) (methods op : Json) (st : MarkState) :
    Option (ParamGroups × MarkState) :=
  paramsFold doc enums fuel (inheritedParams methods ++ opOwnParams op)
    (ParamGroups.empty, st)

def httpMethods : List String :=
  ["get", "put", "post", "delete", "patch", "options", "head", "trace"]

/-- The response map: one `(code, type)` entry per declared response,
typed through `pickContentType` when the response carries truthy content.
Malformed-document collapse: on a `null` response value the JS
`resp.content` access throws (line 733); this model renders `"unknown"`
for it instead. -/
def responsesFold (doc : Json) (enums : List (String × EnumDef)) (fuel : Nat) :
    List (String × Json) → MarkState →
    Option (List (String × String) × MarkState)
  | [], st => some ([], st)
  | (code, resp) :: rest, st =>
    let rRes : Option (String × MarkState) :=
      match Json.getT resp "content" with
      | some c =>
        (match pickContentType doc enums fuel c st with
         | some ((t, _), st₁) => some (t, st₁)
         | none => none)
      | none => some ("unknown", st)
    match rRes with
    | none => none
    | some (t, st₁) =>
      match responsesFold doc enums fuel rest st₁ with
      | some (rs, st₂) => some ((code, t) :: rs, st₂)
      | none => none

/-- The projected contract of one `(route, method)` operation.  The
operation-alias and path-index bookkeeping of the source is pure string
assembly over these fields and carries no further state effects. -/
structure OpProj where
  route : String
  method : String
  params : ParamGroups
  requestType : String
  responses : List (String × String)
deriving Repr, DecidableEq

def projectOp (doc : Json) (enums : List (String × EnumDef)) (fuel : Nat)
    (route : String) (methods : Json) (method : String) (op : Json)
    (st : MarkState) : Option (OpProj × MarkState) :=
  match buildParamGroups doc enums fuel methods op st with
  | none => none
  | some (groups, st₁) =>
    let reqRes : Option (String × MarkState) :=
      match Json.getT op "requestBody" with
      | some rb =>
        let content := match rb.get "content" with
          | some c => c
          | none => Json.null
        (match pickContentType doc enums fuel content st₁ with
         | some ((t, _), st₂) => some (t, st₂)
         | none => none)
      | none => some ("undefined", st₁)
    match reqRes with
    | none => none
    | some (reqT, st₂) =>
      let respRes : Option (List (String × String) × MarkState) :=
        match Json.getT op "responses" with
        | some resp =>
          if Json.isObject resp then
            responsesFold doc enums fuel (Json.entriesOf resp) st₂
          else some ([], st₂)
        | none => some ([], st₂)
      match respRes with
      | none => none
      | some (resps, st₃) => some (⟨route, method, groups, reqT, resps⟩, st₃)

/-- The method loop of the projector: skip non-objects and unknown HTTP
methods. -/
def projectMethodsGo (doc : Json) (enums : List (String × EnumDef))
    (fuel : Nat) (route : String) (methods : Json) :
    List (String × Json) → MarkState → Option (List OpProj × MarkState)
  | [], st => some ([], st)
  | (method, op) :: rest, st =>
    if Json.jsObjLike op && httpMethods.contains (lowerString method) then
      match projectOp doc enums fuel route methods (lowerString method) op st with
      | none => none
      | some (proj, st₁) =>
        (match projectMethodsGo doc enums fuel route methods rest st₁ with
         | some (projs, st₂) => some (proj :: projs, st₂)
         | none => none)
    else projectMethodsGo doc enums fuel route methods rest st

def projectPathsGo (doc : Json) (enums : List (String × EnumDef)) (fuel : Nat) :
    List (String × Json) → MarkState → Option (List OpProj × MarkState)
  | [], st => some ([], st)
  | (route, methods) :: rest, st =>
    match projectMethodsGo doc enums fuel route methods
        (Json.entriesOf methods) st with
    | none => none
    | some (projs, st₁) =>
      match projectPathsGo doc enums fuel rest st₁ with
      | some (projs', st₂) => some (projs ++ projs', st₂)
      | none => none

/-- The operation/path projection loop over `openapi.paths || {}`. -/
def projectPaths (doc : Json) (enums : List (String × EnumDef)) (fuel : Nat)
    (st : MarkState) : Option (List OpProj × MarkState) :=
  projectPathsGo doc enums fuel (Json.entriesOf (pathsObj doc)) st

/-- The two component-section entry lists, in emission order: names that
received an `export type` in the type module, and names that received an
`export const …Schema` in the validator module.  (The rendered right-hand
sides are the synthesizers' outputs; the claims below concern presence and
order, so the entry lists record the names.) -/
structure EmitResult where
  typeEntries : List String
  zodEntries : List String
deriving Repr, DecidableEq

/-- The component emission loop: skip names absent from `usedComponents`
(checked under both the raw and the canonicalized name, against the
*current* state); an enum-named component contributes only a validator
entry (its type-module declaration lives in the enum section); any other
used component is rendered by both synthesizers, whose marking side
effects thread into the scan of the remaining entries. -/
def emitComponentsGo (doc : Json) (enums : List (String × EnumDef))
    (fuel : Nat) : List (String × Json) → EmitResult → MarkState →
    Option (EmitResult × MarkState)
  | [], acc, st => some (acc, st)
  | (name, schema) :: rest, acc, st =>
    if ¬ (st.usedComponents.contains (toTypeName name) ||
        st.usedComponents.contains name) then
      emitComponentsGo doc enums fuel rest acc st
    else
      match lookupEnum enums name with
      | some _ =>
        emitComponentsGo doc enums fuel rest
          { acc with zodEntries := acc.zodEntries ++ [name] } st
      | none =>
        match typeFromSchema doc enums fuel schema st with
        | none => none
        | some (_, st₁) =>
          let p := zodFromSchema doc enums fuel schema st₁
          emitComponentsGo doc enums fuel rest
            { typeEntries := acc.typeEntries ++ [name]
              zodEntries := acc.zodEntries ++ [name] } p.2

def emitComponents (doc : Json) (enums : List (String × EnumDef)) (fuel : Nat)
    (st : MarkState) : Option (EmitResult × MarkState) :=
  emitComponentsGo doc enums fuel (Json.entriesOf (componentSchemas doc))
    ⟨[], []⟩ st

/-- The output-assembly enum loop (`for (const [k, v] of
Object.entries(enums))`): the type module declares `k` only when the
used-enum set is empty or contains `k`; the runtime JS module declares
every `k` unconditionally. -/
def emitEnumSection (enums : List (String × EnumDef)) (st : MarkState) :
    List String × List String :=
  enums.foldl
    (fun acc kv =>
      ((if st.usedEnums.isEmpty || st.usedEnums.contains kv.1 then
          acc.1 ++ [kv.1]
        else acc.1),
        acc.2 ++ [kv.1]))
    ([], [])

/-- The stage outputs of one compilation run, in the source's execution
order: marking pass, component emission, path projection, then output
assembly (whose enum filter consults the final state). -/
structure FullResult where
  stMarked : MarkState
  emit : EmitResult
  ops : List OpProj
  stFinal : MarkState
  tsEnumDecls : List String
  jsEnumDecls : List String
deriving Repr, DecidableEq

mutual

/-- Total number of nodes of a JSON tree. -/
def Json.weight : Json → Nat
  | .null | .bool _ | .num _ | .str _ => 1
  | .arr xs => 1 + Json.weightList xs
  | .obj fs => 1 + Json.weightFields fs

def Json.weightList : List Json → Nat
  | [] => 0
  | x :: xs => Json.weight x + Json.weightList xs

def Json.weightFields : List (String × Json) → Nat
  | [] => 0
  | (_, v) :: fs => 1 + Json.weight v + Json.weightFields fs

end

/-- A fuel bound ample for every traversal of the document (each recursive
call strictly decreases the fuel; the cumulative depth of any call chain
is bounded by the document size plus the visited-set-bounded reference
jumps). -/
def buildFuel (doc : Json) : Nat := 2 * Json.weight doc + 16

/-- The compilation pipeline of `build` in source order. -/
def buildResult (doc : Json) : Option FullResult :=
  let enums := collectEnums doc
  let fuel := buildFuel doc
  let st1 := markAllPaths doc enums fuel MarkState.initial
  match emitComponents doc enums fuel st1 with
  | none => none
  | some (emit, st2) =>
    match projectPaths doc enums fuel st2 with
    | none => none
    | some (ops, st3) =>
      let sect := emitEnumSection enums st3
      some ⟨st1, emit, ops, st3, sect.1, sect.2⟩

/-!  ### Concrete documents

Small OpenAPI documents, each a direct transliteration of a JSON input,
exercising one pipeline feature each; the claims' counterexamples and
witnesses evaluate the pipeline on them. -/

/-- An empty `paths` map beside one enum component and one plain object
component. -/
def docC1 : Json := Json.obj [
  ("components", Json.obj [
    ("schemas", Json.obj [
      ("Color", Json.obj [("type", Json.str "integer"),
        ("enum", Json.arr [Json.num 1, Json.num 2]),
        ("x-enum-varnames", Json.arr [Json.str "RED", Json.str "BLUE"])]),
      ("Widget", Json.obj [("type", Json.str "object"),
        ("properties", Json.obj [("id", Json.obj [("type", Json.str "integer")])])])])]),
  ("paths", Json.obj [])]

/-- A generic-named enum (`CommandOptionType`, values 3 and 4) before a
non-generic enum (`ButtonStyle`, value 3). -/
def docC2 : Json := Json.obj [
  ("components", Json.obj [
    ("schemas", Json.obj [
      ("CommandOptionType", Json.obj [("type", Json.str "integer"),
        ("enum", Json.arr [Json.num 3, Json.num 4]),
        ("x-enum-varnames", Json.arr [Json.str "OPT_A", Json.str "OPT_B"])]),
      ("ButtonStyle", Json.obj [("type", Json.str "integer"),
        ("enum", Json.arr [Json.num 3]),
        ("x-enum-varnames", Json.arr [Json.str "PRIMARY"])])])])]

/-- One operation whose only parameter is a `$ref` into
`components.parameters`; the resolved parameter's schema references the
component `Payload`. -/
def docC3 : Json := Json.obj [
  ("components", Json.obj [
    ("schemas", Json.obj [("Payload", Json.obj [("type", Json.str "string")])]),
    ("parameters", Json.obj [("PayloadParam", Json.obj [
      ("name", Json.str "payload"), ("in", Json.str "query"),
      ("schema", Json.obj [("$ref", Json.str "#/components/schemas/Payload")])])])]),
  ("paths", Json.obj [("/route", Json.obj [("get", Json.obj [
    ("parameters", Json.arr [Json.obj [
      ("$ref", Json.str "#/components/parameters/PayloadParam")]])])])])]

/-- Like `docC3`: the only route to the component `Filter` is through a
parameter declared as a `$ref` into `components.parameters`. -/
def docC4 : Json := Json.obj [
  ("components", Json.obj [
    ("schemas", Json.obj [("Filter", Json.obj [("type", Json.str "string")])]),
    ("parameters", Json.obj [("FilterParam", Json.obj [
      ("name", Json.str "filter"), ("in", Json.str "query"),
      ("schema", Json.obj [("$ref", Json.str "#/components/schemas/Filter")])])])]),
  ("paths", Json.obj [("/items", Json.obj [("get", Json.obj [
    ("parameters", Json.arr [Json.obj [
      ("$ref", Json.str "#/components/parameters/FilterParam")]])])])])]

/-- A parameter schema that is a direct component reference. -/
def schC4w : Json := Json.obj [("$ref", Json.str "#/components/schemas/Filter")]

def paramC4w : Json := Json.obj [("name", Json.str "f"),
  ("in", Json.str "query"), ("schema", schC4w)]

def opC4w : Json := Json.obj [("parameters", Json.arr [paramC4w])]

def methodsC4w : Json := Json.obj [("get", opC4w)]

/-- An operation with an inline parameter whose schema references
`Filter` directly. -/
def docC4w : Json := Json.obj [
  ("components", Json.obj [("schemas", Json.obj [
    ("Filter", Json.obj [("type", Json.str "string")])])]),
  ("paths", Json.obj [("/w", methodsC4w)])]

/-- One plain component (`Account`) and one enum component (`Status`),
both referenced by parameter schemas of one operation. -/
def docC5 : Json := Json.obj [
  ("components", Json.obj [("schemas", Json.obj [
    ("Account", Json.obj [("type", Json.str "string")]),
    ("Status", Json.obj [("type", Json.str "integer"),
      ("enum", Json.arr [Json.num 0, Json.num 1]),
      ("x-enum-varnames", Json.arr [Json.str "OFF", Json.str "ON"])])])]),
  ("paths", Json.obj [("/acct", Json.obj [("get", Json.obj [
    ("parameters", Json.arr [
      Json.obj [("name", Json.str "a"), ("in", Json.str "query"),
        ("schema", Json.obj [("$ref", Json.str "#/components/schemas/Account")])],
      Json.obj [("name", Json.str "s"), ("in", Json.str "query"),
        ("schema", Json.obj [("$ref", Json.str "#/components/schemas/Status")])]])])])])]

/-- The marking pass's output on `docC5`. -/
def stMarkC5 : MarkState :=
  markAllPaths docC5 (collectEnums docC5) (buildFuel docC5) MarkState.initial

/-- The component-emission stage's output on `docC5`. -/
def emitC5 : Option (EmitResult × MarkState) :=
  emitComponents docC5 (collectEnums docC5) (buildFuel docC5) stMarkC5

def resC5 : EmitResult := (emitC5.map Prod.fst).getD ⟨[], []⟩

def stC5x : MarkState := (emitC5.map Prod.snd).getD MarkState.initial

/-- A self-referential component. -/
def docC6 : Json := Json.obj [("components", Json.obj [("schemas", Json.obj [
  ("Node", Json.obj [("type", Json.str "object"),
    ("properties", Json.obj [("next", Json.obj [
      ("$ref", Json.str "#/components/schemas/Node")])])])])])]

/-- A reference node to `Node`. -/
def refNode : Json := Json.obj [("$ref", Json.str "#/components/schemas/Node")]

/-- A content map declaring `image/png` before `application/json`. -/
def contentC7 : Json := Json.obj [
  ("image/png", Json.obj [("schema", Json.obj [("type", Json.str "string")])]),
  ("application/json", Json.obj [("schema", Json.obj [("type", Json.str "integer")])])]

/-- A route-level parameter not re-declared at the method level. -/
def paramC8 : Json := Json.obj [("name", Json.str "limit"),
  ("in", Json.str "query"), ("schema", Json.obj [("type", Json.str "integer")]),
  ("required", Json.bool true)]

def opC8 : Json := Json.obj [("responses", Json.obj [])]

def methodsC8 : Json := Json.obj [
  ("parameters", Json.arr [paramC8]), ("get", opC8)]

/-- The merged-parameter grouping of the `get` operation of `methodsC8`. -/
def bpgC8 : Option (ParamGroups × MarkState) :=
  buildParamGroups (Json.obj []) [] 9 methodsC8 opC8 MarkState.initial

def groupsC8 : ParamGroups := (bpgC8.map Prod.fst).getD ParamGroups.empty

def stC8x : MarkState := (bpgC8.map Prod.snd).getD MarkState.initial

/-- A property map carrying a `null` property schema: `typeFromSchema`
reads `.nullable` off it (a TypeError in JS), `zodFromSchema` guards the
access. -/
def crashSchema : Json := Json.obj [("properties", Json.obj [("a", Json.null)])]

/-!  ### The append-only order on compilation states

`MarkState.le` says the second state's usage sets extend the first's.
Every state transition of the compiler goes through `Set.add`
(`addString`), so every function below is monotone w.r.t. this order —
the formal content of "append-only during a single compilation run". -/

/-- Usage sets only ever grow.  (The `visited` set is internal to the
marker and not part of the claims' usage-set vocabulary.) -/
def MarkState.le (a b : MarkState) : Prop :=
  a.usedComponents ⊆ b.usedComponents ∧ a.usedEnums ⊆ b.usedEnums

theorem MarkState.le_refl (a : MarkState) : a.le a :=
  ⟨List.Subset.refl _, List.Subset.refl _⟩

theorem MarkState.le_trans {a b c : MarkState} (h₁ : a.le b) (h₂ : b.le c) :
    a.le c :=
  ⟨h₁.1.trans h₂.1, h₁.2.trans h₂.2⟩

theorem subset_addString (x : String) (l : List String) : l ⊆ addString x l := by
  unfold addString; split
  · exact List.Subset.refl _
  · exact List.subset_append_left _ _

theorem mem_addString (x : String) (l : List String) : x ∈ addString x l := by
  unfold addString; split
  · assumption
  · simp

theorem markEnumUse_le (enums : List (String × EnumDef)) (n : String)
    (st : MarkState) : st.le (markEnumUse enums n st) := by
  unfold markEnumUse; split
  · exact ⟨List.Subset.refl _, subset_addString _ _⟩
  · exact MarkState.le_refl _

theorem markComponent_le (enums : List (String × EnumDef)) (n : String)
    (st : MarkState) : st.le (markComponent enums n st) := by
  unfold markComponent
  exact @MarkState.le_trans st
    { st with usedComponents := addString n st.usedComponents } _
    ⟨subset_addString _ _, List.Subset.refl _⟩ (markEnumUse_le _ _ _)

theorem mem_markComponent (enums : List (String × EnumDef)) (n : String)
    (st : MarkState) : n ∈ (markComponent enums n st).usedComponents := by
  unfold markComponent markEnumUse
  split <;> exact mem_addString _ _

theorem visited_cons_le (st : MarkState) (s : Json) :
    st.le { st with visited := s :: st.visited } :=
  ⟨List.Subset.refl _, List.Subset.refl _⟩

/-- A left fold of monotone steps is monotone. -/
theorem foldl_le {α : Type} (step : MarkState → α → MarkState)
    (h : ∀ st x, MarkState.le st (step st x)) :
    ∀ (l : List α) (st : MarkState), MarkState.le st (List.foldl step st l) := by
  intro l
  induction l with
  | nil => intro st; exact MarkState.le_refl _
  | cons x xs ih =>
    intro st
    exact MarkState.le_trans (h st x) (ih (step st x))

theorem mapEnumForEnum_le (enums : List (String × EnumDef)) (vs : List Json)
    (st : MarkState) : st.le (mapEnumForEnum enums vs st).2 := by
  unfold mapEnumForEnum
  split
  · exact markEnumUse_le _ _ _
  · split
    · split
      · exact markEnumUse_le _ _ _
      · exact MarkState.le_refl _
    · exact MarkState.le_refl _

theorem mapEnumForConst_le (enums : List (String × EnumDef)) (v : Json)
    (st : MarkState) : st.le (mapEnumForConst enums v st).2 := by
  unfold mapEnumForConst
  split
  · exact markEnumUse_le _ _ _
  · exact MarkState.le_refl _

theorem mapEnumFromAllOfGo_le (doc : Json) (enums : List (String × EnumDef))
    (values : List Json) :
    ∀ (entries : List Json) (st : MarkState),
      st.le (mapEnumFromAllOfGo doc enums values entries st).2 := by
  intro entries
  induction entries with
  | nil => intro st; exact MarkState.le_refl _
  | cons entry rest ih =>
    intro st
    unfold mapEnumFromAllOfGo
    split
    · dsimp only
      split
      · exact ih st
      · split
        · split
          · split
            · exact markEnumUse_le _ _ _
            · exact markEnumUse_le _ _ _
          · exact markEnumUse_le _ _ _
        · exact ih st
    · exact ih st

theorem mapEnumFromAllOf_le (doc : Json) (enums : List (String × EnumDef))
    (values : List Json) (a : Json) (st : MarkState) :
    st.le (mapEnumFromAllOf doc enums values a st).2 := by
  unfold mapEnumFromAllOf
  split
  · exact mapEnumFromAllOfGo_le _ _ _ _ _
  · exact MarkState.le_refl _

theorem mapEnumFromRefsGo_le (enums : List (String × EnumDef))
    (value : Option Json) :
    ∀ (entries : List Json) (st : MarkState),
      st.le (mapEnumFromRefsGo enums value entries st).2 := by
  intro entries
  induction entries with
  | nil => intro st; exact MarkState.le_refl _
  | cons entry rest ih =>
    intro st
    unfold mapEnumFromRefsGo
    split
    · dsimp only
      split
      · exact ih st
      · split
        · split
          · exact markEnumUse_le _ _ _
          · exact markEnumUse_le _ _ _
        · exact markEnumUse_le _ _ _
    · exact ih st

theorem mapEnumFromRefs_le (enums : List (String × EnumDef))
    (value : Option Json) (a : Json) (st : MarkState) :
    st.le (mapEnumFromRefs enums value a st).2 := by
  unfold mapEnumFromRefs
  split
  · exact mapEnumFromRefsGo_le _ _ _ _
  · exact MarkState.le_refl _

theorem mark_family_le (doc : Json) (enums : List (String × EnumDef)) :
    ∀ fuel : Nat,
      (∀ s st, MarkState.le st (markSchema doc enums fuel s st)) ∧
      (∀ l st, MarkState.le st (markList doc enums fuel l st)) ∧
      (∀ o st, MarkState.le st (markOptSchema doc enums fuel o st)) := by
  intro fuel
  induction fuel with
  | zero =>
    exact ⟨fun s st => MarkState.le_refl st, fun l st => MarkState.le_refl st,
      fun o st => MarkState.le_refl st⟩
  | succ fuel ih =>
    obtain ⟨ihS, ihL, ihO⟩ := ih
    refine ⟨fun s st => ?_, fun l st => ?_, fun o st => ?_⟩
    · rw [markSchema]
      split
      · exact MarkState.le_refl st
      split
      · exact MarkState.le_refl st
      dsimp only
      split
      · rename_i r heq
        refine MarkState.le_trans (visited_cons_le st s) ?_
        refine MarkState.le_trans
          (markComponent_le enums (resolveRef r) { st with visited := s :: st.visited }) ?_
        split
        · split
          · exact ihS _ _
          · exact MarkState.le_refl _
        · exact MarkState.le_refl _
      · exact visited_cons_le st s
      · refine MarkState.le_trans ?_ (ihO _ _)
        refine MarkState.le_trans ?_ (ihO _ _)
        refine MarkState.le_trans ?_ (ihO _ _)
        refine MarkState.le_trans ?_ (ihO _ _)
        refine MarkState.le_trans ?_ (ihL _ _)
        refine MarkState.le_trans ?_ (ihO _ _)
        refine MarkState.le_trans ?_ (ihL _ _)
        refine MarkState.le_trans ?_ (ihL _ _)
        refine MarkState.le_trans ?_ (ihL _ _)
        exact visited_cons_le st s
    · cases l with
      | nil => rw [markList]; exact MarkState.le_refl st
      | cons x xs =>
        rw [markList]
        exact MarkState.le_trans (ihS _ _) (ihL _ _)
    · cases o with
      | none => rw [markOptSchema]; exact MarkState.le_refl st
      | some x => rw [markOptSchema]; exact ihS _ _

theorem markSchema_le (doc : Json) (enums : List (String × EnumDef))
    (fuel : Nat) (s : Json) (st : MarkState) :
    st.le (markSchema doc enums fuel s st) :=
  (mark_family_le doc enums fuel).1 s st

theorem markContentAll_le (doc : Json) (enums : List (String × EnumDef))
    (fuel : Nat) (content : Json) (st : MarkState) :
    st.le (markContentAll doc enums fuel content st) := by
  unfold markContentAll
  refine foldl_le _ (fun st v => ?_) _ st
  split
  · split
    · exact markSchema_le _ _ _ _ _
    · exact MarkState.le_refl _
  · exact MarkState.le_refl _

theorem markContent_le (doc : Json) (enums : List (String × EnumDef))
    (fuel : Nat) (content : Json) (st : MarkState) :
    st.le (markContent doc enums fuel content st) := by
  unfold markContent
  split
  · exact MarkState.le_refl _
  split
  · split
    · exact markSchema_le _ _ _ _ _
    · exact markContentAll_le _ _ _ _ _
  · exact markContentAll_le _ _ _ _ _

theorem markParamStep_le (doc : Json) (enums : List (String × EnumDef))
    (fuel : Nat) (st : MarkState) (p : Json) :
    st.le (markParamStep doc enums fuel st p) := by
  unfold markParamStep
  split
  · exact markSchema_le _ _ _ _ _
  · exact MarkState.le_refl _

theorem markRbStep_le (doc : Json) (enums : List (String × EnumDef))
    (fuel : Nat) (op : Json) (st : MarkState) :
    st.le (markRbStep doc enums fuel op st) := by
  unfold markRbStep
  split
  · split
    · exact markContent_le _ _ _ _ _
    · exact MarkState.le_refl _
  · exact MarkState.le_refl _

theorem markRespItem_le (doc : Json) (enums : List (String × EnumDef))
    (fuel : Nat) (st : MarkState) (r : Json) :
    st.le (markRespItem doc enums fuel st r) := by
  unfold markRespItem
  split
  · split
    · exact markContent_le _ _ _ _ _
    · exact MarkState.le_refl _
  · exact MarkState.le_refl _

theorem markRespStep_le (doc : Json) (enums : List (String × EnumDef))
    (fuel : Nat) (op : Json) (st : MarkState) :
    st.le (markRespStep doc enums fuel op st) := by
  unfold markRespStep
  split
  · split
    · exact foldl_le _ (markRespItem_le doc enums fuel) _ st
    · exact MarkState.le_refl _
  · exact MarkState.le_refl _

theorem markOp_le (doc : Json) (enums : List (String × EnumDef)) (fuel : Nat)
    (pathParams : List Json) (st : MarkState) (op : Json) :
    st.le (markOp doc enums fuel pathParams st op) := by
  rw [markOp]
  split
  · exact MarkState.le_refl _
  refine MarkState.le_trans (foldl_le _ (markParamStep_le doc enums fuel) pathParams st) ?_
  refine MarkState.le_trans (foldl_le _ (markParamStep_le doc enums fuel) (opOwnParams op) _) ?_
  refine MarkState.le_trans (markRbStep_le doc enums fuel op _) ?_
  exact markRespStep_le doc enums fuel op _

theorem markMethods_le (doc : Json) (enums : List (String × EnumDef))
    (fuel : Nat) (st : MarkState) (methods : Json) :
    st.le (markMethods doc enums fuel st methods) := by
  unfold markMethods
  exact foldl_le _ (markOp_le doc enums fuel (inheritedParams methods)) _ st

theorem markAllPaths_le (doc : Json) (enums : List (String × EnumDef))
    (fuel : Nat) (st : MarkState) :
    st.le (markAllPaths doc enums fuel st) := by
  unfold markAllPaths
  exact foldl_le _ (markMethods_le doc enums fuel) _ st

/-- The state of a crashable computation extends `st` (vacuous on a
crash, which aborts the build). -/
def optionStateLe {α : Type} (st : MarkState) : Option (α × MarkState) → Prop
  | some p => st.le p.2
  | none => True

theorem optionStateLe_some {α : Type} {st : MarkState}
    {r : Option (α × MarkState)} (h : optionStateLe st r)
    {p : α × MarkState} (he : r = some p) : st.le p.2 := by
  subst he; exact h

theorem optionStateLe_of_le {α : Type} {st st' : MarkState} (h : st.le st')
    {r : Option (α × MarkState)} (hr : optionStateLe st' r) :
    optionStateLe st r := by
  cases r with
  | none => trivial
  | some p => exact MarkState.le_trans h hr

theorem type_family_le (doc : Json) (enums : List (String × EnumDef)) :
    ∀ fuel : Nat,
      (∀ s st, optionStateLe st (typeFromSchema doc enums fuel s st)) ∧
      (∀ s bs sep st, optionStateLe st (typeUnionList doc enums fuel s bs sep st)) ∧
      (∀ l st, optionStateLe st (typeList doc enums fuel l st)) ∧
      (∀ pn ps st, optionStateLe st (propTypeStep doc enums fuel pn ps st)) ∧
      (∀ req ps st, optionStateLe st (typeProps doc enums fuel req ps st)) ∧
      (∀ s st, optionStateLe st (typeApStep doc enums fuel s st)) ∧
      (∀ s ts st, optionStateLe st (typeMulti doc enums fuel s ts st)) ∧
      (∀ s t st, optionStateLe st (typeMultiStep doc enums fuel s t st)) := by
  intro fuel
  induction fuel with
  | zero =>
    refine ⟨fun s st => ?_, fun s bs sep st => ?_, fun l st => ?_,
      fun pn ps st => ?_, fun req ps st => ?_, fun s st => ?_,
      fun s ts st => ?_, fun s t st => ?_⟩ <;> exact MarkState.le_refl st
  | succ fuel ih =>
    obtain ⟨ihS, ihU, ihT, ihPT, ihP, ihA, ihM, ihMS⟩ := ih
    refine ⟨fun s st => ?_, fun s bs sep st => ?_, fun l st => ?_,
      fun pn ps st => ?_, fun req ps st => ?_, fun s st => ?_,
      fun s ts st => ?_, fun s t st => ?_⟩
    · -- typeFromSchema
      rw [typeFromSchema]
      split
      · exact MarkState.le_refl st
      split
      · exact markComponent_le _ _ _
      · exact MarkState.le_refl st
      split
      · -- enum branch
        rename_i vs heqE
        dsimp only
        split
        · exact mapEnumForEnum_le _ _ _
        · split
          · refine MarkState.le_trans (mapEnumForEnum_le enums vs st) ?_
            split
            · exact mapEnumFromAllOf_le _ _ _ _ _
            · exact MarkState.le_refl _
          · refine MarkState.le_trans (mapEnumForEnum_le enums vs st) ?_
            split
            · exact mapEnumFromAllOf_le _ _ _ _ _
            · exact MarkState.le_refl _
      split
      · -- const branch
        rename_i c heqC
        dsimp only
        split
        · exact mapEnumForConst_le _ _ _
        · split
          · refine MarkState.le_trans (mapEnumForConst_le enums c st) ?_
            split
            · exact mapEnumFromAllOf_le _ _ _ _ _
            · exact MarkState.le_refl _
          · refine MarkState.le_trans (mapEnumForConst_le enums c st) ?_
            split
            · exact mapEnumFromAllOf_le _ _ _ _ _
            · exact MarkState.le_refl _
      split
      · exact ihU _ _ _ _
      split
      · exact ihU _ _ _ _
      split
      · exact ihU _ _ _ _
      split
      · -- array branch
        dsimp only
        split
        · rename_i p heq
          have h : MarkState.le st p.2 := optionStateLe_some (ihS _ _) heq
          exact h
        · trivial
      split
      · -- object branch
        dsimp only
        split
        · trivial
        · rename_i pr heq₁
          split
          · trivial
          · rename_i pa heq₂
            have h : MarkState.le st pa.2 :=
              MarkState.le_trans (optionStateLe_some (ihP _ _ _) heq₁)
                (optionStateLe_some (ihA _ _) heq₂)
            exact h
      -- primitive tail
      split
      · rename_i ts heq
        split
        · rename_i p heq₂
          have h : MarkState.le st p.2 := optionStateLe_some (ihM _ _ _) heq₂
          exact h
        · trivial
      all_goals exact MarkState.le_refl st
    · -- typeUnionList
      rw [typeUnionList]
      split
      · split
        · exact ihS _ _
        · exact MarkState.le_refl st
      · split
        · rename_i p heq
          have h : MarkState.le st p.2 := optionStateLe_some (ihT _ _) heq
          exact h
        · trivial
    · -- typeList
      cases l with
      | nil => rw [typeList]; exact MarkState.le_refl st
      | cons x xs =>
        rw [typeList]
        split
        · rename_i p heq₁
          split
          · rename_i q heq₂
            have h : MarkState.le st q.2 :=
              MarkState.le_trans (optionStateLe_some (ihS _ _) heq₁)
                (optionStateLe_some (ihT _ _) heq₂)
            exact h
          · trivial
        · trivial
    · -- propTypeStep
      rw [propTypeStep]
      dsimp only
      split
      · split
        · exact mapEnumFromAllOf_le _ _ _ _ _
        · exact optionStateLe_of_le (mapEnumFromAllOf_le _ _ _ _ _) (ihS _ _)
      split
      · split
        · exact mapEnumFromAllOf_le _ _ _ _ _
        · exact optionStateLe_of_le (mapEnumFromAllOf_le _ _ _ _ _) (ihS _ _)
      split
      · split
        · exact MarkState.le_trans (mapEnumFromAllOf_le _ _ _ _ _)
            (mapEnumFromRefs_le _ _ _ _)
        · split
          · exact MarkState.le_trans (mapEnumFromAllOf_le _ _ _ _ _)
              (mapEnumFromRefs_le _ _ _ _)
          · split
            · exact MarkState.le_trans (MarkState.le_trans
                (mapEnumFromAllOf_le _ _ _ _ _) (mapEnumFromRefs_le _ _ _ _))
                (mapEnumForConst_le _ _ _)
            · split
              · exact MarkState.le_trans (MarkState.le_trans (MarkState.le_trans
                  (mapEnumFromAllOf_le _ _ _ _ _) (mapEnumFromRefs_le _ _ _ _))
                  (mapEnumForConst_le _ _ _)) (mapEnumForEnum_le _ _ _)
              · refine optionStateLe_of_le ?_ (ihS _ _)
                exact MarkState.le_trans (MarkState.le_trans (MarkState.le_trans
                  (mapEnumFromAllOf_le _ _ _ _ _) (mapEnumFromRefs_le _ _ _ _))
                  (mapEnumForConst_le _ _ _)) (mapEnumForEnum_le _ _ _)
      split
      · split
        · exact MarkState.le_trans (mapEnumFromAllOf_le _ _ _ _ _)
            (mapEnumFromRefs_le _ _ _ _)
        · split
          · exact MarkState.le_trans (mapEnumFromAllOf_le _ _ _ _ _)
              (mapEnumFromRefs_le _ _ _ _)
          · split
            · exact MarkState.le_trans (MarkState.le_trans
                (mapEnumFromAllOf_le _ _ _ _ _) (mapEnumFromRefs_le _ _ _ _))
                (mapEnumForConst_le _ _ _)
            · refine optionStateLe_of_le ?_ (ihS _ _)
              exact MarkState.le_trans (MarkState.le_trans
                (mapEnumFromAllOf_le _ _ _ _ _) (mapEnumFromRefs_le _ _ _ _))
                (mapEnumForConst_le _ _ _)
      exact ihS _ _
    · -- typeProps
      cases ps with
      | nil => rw [typeProps]; exact MarkState.le_refl st
      | cons hd rest =>
        obtain ⟨propName, psv⟩ := hd
        rw [typeProps]
        split
        · trivial
        · rename_i pt heq₁
          have h₁ : MarkState.le st pt.2 := optionStateLe_some (ihPT _ _ _) heq₁
          have tail : ∀ line : String, optionStateLe st
              (match typeProps doc enums fuel req rest pt.2 with
               | some q => some (line ++ q.1, q.2)
               | none => none) := by
            intro line
            split
            · rename_i q heq₂
              have h₂ : MarkState.le st q.2 :=
                MarkState.le_trans h₁ (optionStateLe_some (ihP _ _ _) heq₂)
              exact h₂
            · trivial
          cases psv
          case null => trivial
          all_goals exact tail _
    · -- typeApStep
      rw [typeApStep]
      split
      · exact MarkState.le_refl st
      · split
        · split
          · rename_i p heq
            have h : MarkState.le st p.2 := optionStateLe_some (ihS _ _) heq
            exact h
          · trivial
        · exact MarkState.le_refl st
      · exact MarkState.le_refl st
    · -- typeMulti
      cases ts with
      | nil => rw [typeMulti]; exact MarkState.le_refl st
      | cons t ts =>
        rw [typeMulti]
        split
        · trivial
        · rename_i p heq₁
          split
          · rename_i q heq₂
            have h : MarkState.le st q.2 :=
              MarkState.le_trans (optionStateLe_some (ihMS _ _ _) heq₁)
                (optionStateLe_some (ihM _ _ _) heq₂)
            exact h
          · trivial
    · -- typeMultiStep
      rw [typeMultiStep.eq_def]
      dsimp only
      split
      all_goals try exact MarkState.le_refl st
      all_goals try exact ihS _ _
      all_goals split
      all_goals try trivial
      all_goals
        rename_i p heq
        have h : MarkState.le st p.2 := optionStateLe_some (ihS _ _) heq
        exact h

theorem typeFromSchema_le (doc : Json) (enums : List (String × EnumDef))
    (fuel : Nat) (s : Json) (st : MarkState) :
    optionStateLe st (typeFromSchema doc enums fuel s st) :=
  (type_family_le doc enums fuel).1 s st

set_option maxHeartbeats 2000000 in
theorem zod_family_le (doc : Json) (enums : List (String × EnumDef)) :
    ∀ fuel : Nat,
      (∀ s st, MarkState.le st (zodFromSchema doc enums fuel s st).2) ∧
      (∀ s bs st, MarkState.le st (zodUnionList doc enums fuel s bs st).2) ∧
      (∀ l st, MarkState.le st (zodList doc enums fuel l st).2) ∧
      (∀ ps st, MarkState.le st (zodProps doc enums fuel ps st).2) ∧
      (∀ s ts st, MarkState.le st (zodMulti doc enums fuel s ts st).2) := by
  intro fuel
  induction fuel with
  | zero =>
    refine ⟨fun s st => ?_, fun s bs st => ?_, fun l st => ?_, fun ps st => ?_,
      fun s ts st => ?_⟩ <;> exact MarkState.le_refl st
  | succ fuel ih =>
    obtain ⟨ihS, ihU, ihL, ihP, ihM⟩ := ih
    refine ⟨fun s st => ?_, fun s bs st => ?_, fun l st => ?_, fun ps st => ?_,
      fun s ts st => ?_⟩
    · rw [zodFromSchema]
      repeat' split
      all_goals try dsimp only
      all_goals repeat' split
      all_goals first
        | exact MarkState.le_refl st
        | exact markComponent_le _ _ _
        | exact ihU _ _ _
        | exact ihL _ _
        | exact ihM _ _ _
        | exact ihS _ _
        | exact ihP _ _
        | exact MarkState.le_trans (ihP _ _) (ihS _ _)
    · rw [zodUnionList]
      repeat' split
      all_goals first
        | exact MarkState.le_refl st
        | exact ihL _ _
    · cases l with
      | nil => rw [zodList]; exact MarkState.le_refl st
      | cons x xs =>
        rw [zodList]
        exact MarkState.le_trans (ihS _ _) (ihL _ _)
    · cases ps with
      | nil => rw [zodProps]; exact MarkState.le_refl st
      | cons kv rest =>
        obtain ⟨k, v⟩ := kv
        rw [zodProps]
        exact MarkState.le_trans (ihS _ _) (ihP _ _)
    · cases ts with
      | nil => rw [zodMulti]; exact MarkState.le_refl st
      | cons t ts =>
        rw [zodMulti]
        dsimp only
        split
        · exact ihM _ _ _
        · exact MarkState.le_trans (ihS _ _) (ihM _ _ _)

theorem zodFromSchema_le (doc : Json) (enums : List (String × EnumDef))
    (fuel : Nat) (s : Json) (st : MarkState) :
    st.le (zodFromSchema doc enums fuel s st).2 :=
  (zod_family_le doc enums fuel).1 s st

theorem pickContentType_le (doc : Json) (enums : List (String × EnumDef))
    (fuel : Nat) (content : Json) (st : MarkState) :
    optionStateLe st (pickContentType doc enums fuel content st) := by
  unfold pickContentType
  split
  · exact MarkState.le_refl st
  split
  · split
    · rename_i t st₁ heq
      have h : MarkState.le st (t, st₁).2 :=
        optionStateLe_some (typeFromSchema_le doc enums fuel _ st) heq
      exact h
    · trivial
  · exact MarkState.le_refl st

theorem collectParam_le (doc : Json) (enums : List (String × EnumDef))
    (fuel : Nat) (acc : ParamGroups × MarkState) (p : Json) :
    optionStateLe acc.2 (collectParam doc enums fuel acc p) := by
  unfold collectParam
  split
  · exact MarkState.le_refl _
  try dsimp only
  split
  · trivial
  · rename_i t st₁ heq
    split at heq
    · split at heq
      · have h : MarkState.le acc.2 (t, st₁).2 :=
          optionStateLe_some (typeFromSchema_le doc enums fuel _ acc.2) heq
        exact h
      · cases heq; exact MarkState.le_refl _
    · cases heq; exact MarkState.le_refl _

theorem paramsFold_le (doc : Json) (enums : List (String × EnumDef))
    (fuel : Nat) :
    ∀ (ps : List Json) (acc : ParamGroups × MarkState),
      optionStateLe acc.2 (paramsFold doc enums fuel ps acc) := by
  intro ps
  induction ps with
  | nil => intro acc; exact MarkState.le_refl _
  | cons p rest ih =>
    intro acc
    rw [paramsFold]
    try dsimp only
    split
    · trivial
    · rename_i acc' heq
      have hstep : MarkState.le acc.2 acc'.2 := by
        split at heq
        · split at heq
          · split at heq
            · exact optionStateLe_some (collectParam_le doc enums fuel acc _) heq
            · cases heq; exact MarkState.le_refl _
          · cases heq; exact MarkState.le_refl _
        · cases heq; exact MarkState.le_refl _
        · exact optionStateLe_some (collectParam_le doc enums fuel acc _) heq
      exact optionStateLe_of_le hstep (ih acc')

theorem buildParamGroups_le (doc : Json) (enums : List (String × EnumDef))
    (fuel : Nat) (methods op : Json) (st : MarkState) :
    optionStateLe st (buildParamGroups doc enums fuel methods op st) :=
  paramsFold_le doc enums fuel _ (ParamGroups.empty, st)

theorem responsesFold_le (doc : Json) (enums : List (String × EnumDef))
    (fuel : Nat) :
    ∀ (rs : List (String × Json)) (st : MarkState),
      optionStateLe st (responsesFold doc enums fuel rs st) := by
  intro rs
  induction rs with
  | nil => intro st; exact MarkState.le_refl _
  | cons r rest ih =>
    obtain ⟨code, resp⟩ := r
    intro st
    rw [responsesFold]
    try dsimp only
    split
    · trivial
    · rename_i t st₁ heq
      have hstep : MarkState.le st st₁ := by
        split at heq
        · split at heq
          · rename_i p heqP
            cases heq
            exact optionStateLe_some (pickContentType_le doc enums fuel _ st) heqP
          · exact (Option.noConfusion heq)
        · cases heq; exact MarkState.le_refl _
      split
      · rename_i rs2 st₂ heq₂
        have h : MarkState.le st (rs2, st₂).2 := MarkState.le_trans hstep
          (optionStateLe_some (ih st₁) heq₂)
        exact h
      · trivial

theorem projectOp_le (doc : Json) (enums : List (String × EnumDef))
    (fuel : Nat) (route : String) (methods : Json) (method : String)
    (op : Json) (st : MarkState) :
    optionStateLe st (projectOp doc enums fuel route methods method op st) := by
  unfold projectOp
  split
  · trivial
  · rename_i groups st₁ heqG
    have hG : MarkState.le st (groups, st₁).2 :=
      optionStateLe_some (buildParamGroups_le doc enums fuel methods op st) heqG
    dsimp only
    split
    · trivial
    · rename_i reqT st₂ heqR
      have hR : MarkState.le st st₂ := by
        split at heqR
        · split at heqR
          · rename_i p heqP
            cases heqR
            exact MarkState.le_trans hG
              (optionStateLe_some (pickContentType_le doc enums fuel _ st₁) heqP)
          · exact (Option.noConfusion heqR)
        · cases heqR; exact hG
      split
      · trivial
      · rename_i resps st₃ heqResp
        have hResp : MarkState.le st st₃ := by
          split at heqResp
          · split at heqResp
            · exact MarkState.le_trans hR
                (optionStateLe_some (responsesFold_le doc enums fuel _ st₂) heqResp)
            · cases heqResp; exact hR
          · cases heqResp; exact hR
        exact hResp

theorem projectMethodsGo_le (doc : Json) (enums : List (String × EnumDef))
    (fuel : Nat) (route : String) (methods : Json) :
    ∀ (ms : List (String × Json)) (st : MarkState),
      optionStateLe st (projectMethodsGo doc enums fuel route methods ms st) := by
  intro ms
  induction ms with
  | nil => intro st; exact MarkState.le_refl _
  | cons m rest ih =>
    obtain ⟨method, op⟩ := m
    intro st
    rw [projectMethodsGo]
    split
    · split
      · trivial
      · rename_i proj st₁ heq₁
        have h₁ : MarkState.le st st₁ := optionStateLe_some
          (projectOp_le doc enums fuel route methods (lowerString method) op st) heq₁
        split
        · rename_i projs st₂ heq₂
          have h : MarkState.le st (projs, st₂).2 := MarkState.le_trans h₁
            (optionStateLe_some (ih st₁) heq₂)
          exact h
        · trivial
    · exact ih st

theorem projectPathsGo_le (doc : Json) (enums : List (String × EnumDef))
    (fuel : Nat) :
    ∀ (rs : List (String × Json)) (st : MarkState),
      optionStateLe st (projectPathsGo doc enums fuel rs st) := by
  intro rs
  induction rs with
  | nil => intro st; exact MarkState.le_refl _
  | cons r rest ih =>
    obtain ⟨route, methods⟩ := r
    intro st
    rw [projectPathsGo]
    split
    · trivial
    · rename_i projs st₁ heq₁
      have h₁ : MarkState.le st st₁ := optionStateLe_some
        (projectMethodsGo_le doc enums fuel route methods _ st) heq₁
      split
      · rename_i projs2 st₂ heq₂
        have h : MarkState.le st (projs2, st₂).2 := MarkState.le_trans h₁
          (optionStateLe_some (ih st₁) heq₂)
        exact h
      · trivial

theorem projectPaths_le (doc : Json) (enums : List (String × EnumDef))
    (fuel : Nat) (st : MarkState) :
    optionStateLe st (projectPaths doc enums fuel st) :=
  projectPathsGo_le doc enums fuel _ st

theorem emitComponentsGo_le (doc : Json) (enums : List (String × EnumDef))
    (fuel : Nat) :
    ∀ (entries : List (String × Json)) (acc : EmitResult) (st : MarkState),
      optionStateLe st (emitComponentsGo doc enums fuel entries acc st) := by
  intro entries
  induction entries with
  | nil => intro acc st; exact MarkState.le_refl _
  | cons e rest ih =>
    obtain ⟨name, schema⟩ := e
    intro acc st
    rw [emitComponentsGo]
    split
    · exact ih acc st
    · split
      · exact ih _ st
      · split
        · trivial
        · rename_i t st₁ heq₁
          have h₁ : MarkState.le st (t, st₁).2 :=
            optionStateLe_some (typeFromSchema_le doc enums fuel schema st) heq₁
          dsimp only
          refine optionStateLe_of_le ?_ (ih _ _)
          exact MarkState.le_trans h₁ (zodFromSchema_le doc enums fuel schema st₁)

theorem emitComponents_le (doc : Json) (enums : List (String × EnumDef))
    (fuel : Nat) (st : MarkState) :
    optionStateLe st (emitComponents doc enums fuel st) :=
  emitComponentsGo_le doc enums fuel _ _ st

/-!  ### The marker's reference invariant

Every node the marker has visited that is a (string-valued, truthy)
reference has its resolved target name recorded in `usedComponents`: the
marker marks a reference in the same step that enters the node into
`visited`.  This is the backbone of the claim that the marking pass
records the components named by the schemas it walks. -/

/-- The truthy string `$ref` of a node, when present. -/
def refOf (s : Json) : Option String :=
  match Json.getT s "$ref" with
  | some (.str r) => some r
  | _ => none

/-- Every visited reference node's target is already marked. -/
def RefInv (st : MarkState) : Prop :=
  ∀ s ∈ st.visited, ∀ r, refOf s = some r →
    resolveRef r ∈ st.usedComponents

theorem mem_of_le {a b : MarkState} (h : a.le b) {x : String}
    (hx : x ∈ a.usedComponents) : x ∈ b.usedComponents := h.1 hx

theorem markEnumUse_visited (enums : List (String × EnumDef)) (n : String)
    (st : MarkState) : (markEnumUse enums n st).visited = st.visited := by
  unfold markEnumUse; split <;> rfl

theorem markComponent_visited (enums : List (String × EnumDef)) (n : String)
    (st : MarkState) : (markComponent enums n st).visited = st.visited := by
  unfold markComponent
  rw [markEnumUse_visited]

theorem RefInv_markEnumUse (enums : List (String × EnumDef)) (n : String)
    {st : MarkState} (h : RefInv st) : RefInv (markEnumUse enums n st) := by
  intro s hs r hr
  rw [markEnumUse_visited] at hs
  exact mem_of_le (markEnumUse_le enums n st) (h s hs r hr)

theorem RefInv_markComponent (enums : List (String × EnumDef)) (n : String)
    {st : MarkState} (h : RefInv st) : RefInv (markComponent enums n st) := by
  intro s hs r hr
  rw [markComponent_visited] at hs
  exact mem_of_le (markComponent_le enums n st) (h s hs r hr)

theorem RefInv_cons_noRef {st : MarkState} (h : RefInv st) {s : Json}
    (hs : refOf s = none) : RefInv { st with visited := s :: st.visited } := by
  intro s' hs' r hr
  rcases List.mem_cons.mp hs' with h₁ | h₁
  · subst h₁; rw [hs] at hr; exact (Option.noConfusion hr)
  · exact h s' h₁ r hr

theorem RefInv_cons_ref (enums : List (String × EnumDef)) {st : MarkState}
    (h : RefInv st) {s : Json} {r : String} (hs : refOf s = some r) :
    RefInv (markComponent enums (resolveRef r)
      { st with visited := s :: st.visited }) := by
  intro s' hs' r' hr'
  rw [markComponent_visited] at hs'
  rcases List.mem_cons.mp hs' with h₁ | h₁
  · subst h₁
    rw [hs] at hr'
    cases hr'
    exact mem_markComponent enums (resolveRef r) _
  · exact mem_of_le (markComponent_le enums (resolveRef r) _) (h s' h₁ r' hr')

theorem mark_family_refinv (doc : Json) (enums : List (String × EnumDef)) :
    ∀ fuel : Nat,
      (∀ s st, RefInv st → RefInv (markSchema doc enums fuel s st)) ∧
      (∀ l st, RefInv st → RefInv (markList doc enums fuel l st)) ∧
      (∀ o st, RefInv st → RefInv (markOptSchema doc enums fuel o st)) := by
  intro fuel
  induction fuel with
  | zero => exact ⟨fun s st h => h, fun l st h => h, fun o st h => h⟩
  | succ fuel ih =>
    obtain ⟨ihS, ihL, ihO⟩ := ih
    refine ⟨fun s st h => ?_, fun l st h => ?_, fun o st h => ?_⟩
    · rw [markSchema]
      split
      · exact h
      split
      · exact h
      dsimp only
      split
      · rename_i r heq
        have hr : refOf s = some r := by unfold refOf; rw [heq]
        have h₂ := RefInv_cons_ref enums h hr
        split
        · split
          · exact ihS _ _ h₂
          · exact h₂
        · exact h₂
      · rename_i v hnstr heqr
        have hr : refOf s = none := by
          unfold refOf; rw [heqr]
          cases v <;> first | rfl | (rename_i sv; exact absurd rfl (hnstr sv))
        exact RefInv_cons_noRef h hr
      · rename_i heq
        have hr : refOf s = none := by unfold refOf; rw [heq]
        have h₀ := RefInv_cons_noRef h hr
        exact ihO _ _ (ihO _ _ (ihO _ _ (ihO _ _ (ihL _ _ (ihO _ _ (ihL _ _
          (ihL _ _ (ihL _ _ h₀))))))))
    · cases l with
      | nil => rw [markList]; exact h
      | cons x xs =>
        rw [markList]
        exact ihL _ _ (ihS _ _ h)
    · cases o with
      | none => rw [markOptSchema]; exact h
      | some x => rw [markOptSchema]; exact ihS _ _ h

theorem markSchema_refinv (doc : Json) (enums : List (String × EnumDef))
    (fuel : Nat) (s : Json) {st : MarkState} (h : RefInv st) :
    RefInv (markSchema doc enums fuel s st) :=
  (mark_family_refinv doc enums fuel).1 s st h

theorem markContentAll_refinv (doc : Json) (enums : List (String × EnumDef))
    (fuel : Nat) (content : Json) {st : MarkState} (h : RefInv st) :
    RefInv (markContentAll doc enums fuel content st) := by
  unfold markContentAll
  induction Json.valuesOf content generalizing st with
  | nil => exact h
  | cons v rest ih =>
    refine ih ?_
    dsimp only
    split
    · split
      · exact markSchema_refinv doc enums fuel _ h
      · exact h
    · exact h

theorem markContent_refinv (doc : Json) (enums : List (String × EnumDef))
    (fuel : Nat) (content : Json) {st : MarkState} (h : RefInv st) :
    RefInv (markContent doc enums fuel content st) := by
  unfold markContent
  split
  · exact h
  split
  · split
    · exact markSchema_refinv doc enums fuel _ h
    · exact markContentAll_refinv doc enums fuel content h
  · exact markContentAll_refinv doc enums fuel content h

theorem markParamStep_refinv (doc : Json) (enums : List (String × EnumDef))
    (fuel : Nat) {st : MarkState} (p : Json) (h : RefInv st) :
    RefInv (markParamStep doc enums fuel st p) := by
  unfold markParamStep
  split
  · exact markSchema_refinv doc enums fuel _ h
  · exact h

/-- Preservation of a predicate along a left fold. -/
theorem foldl_pres {α : Type} {P : MarkState → Prop}
    (step : MarkState → α → MarkState)
    (hstep : ∀ st x, P st → P (step st x)) :
    ∀ (l : List α) (st : MarkState), P st → P (List.foldl step st l) := by
  intro l
  induction l with
  | nil => intro st h; exact h
  | cons x xs ih => intro st h; exact ih (step st x) (hstep st x h)

theorem markRbStep_refinv (doc : Json) (enums : List (String × EnumDef))
    (fuel : Nat) (op : Json) {st : MarkState} (h : RefInv st) :
    RefInv (markRbStep doc enums fuel op st) := by
  unfold markRbStep
  split
  · split
    · exact markContent_refinv doc enums fuel _ h
    · exact h
  · exact h

theorem markRespStep_refinv (doc : Json) (enums : List (String × EnumDef))
    (fuel : Nat) (op : Json) {st : MarkState} (h : RefInv st) :
    RefInv (markRespStep doc enums fuel op st) := by
  unfold markRespStep
  split
  · split
    · refine foldl_pres _ (fun st r hr => ?_) _ _ h
      unfold markRespItem
      split
      · split
        · exact markContent_refinv doc enums fuel _ hr
        · exact hr
      · exact hr
    · exact h
  · exact h

theorem markOp_refinv (doc : Json) (enums : List (String × EnumDef))
    (fuel : Nat) (pathParams : List Json) {st : MarkState} (op : Json)
    (h : RefInv st) : RefInv (markOp doc enums fuel pathParams st op) := by
  rw [markOp]
  split
  · exact h
  refine markRespStep_refinv doc enums fuel op ?_
  refine markRbStep_refinv doc enums fuel op ?_
  refine foldl_pres _ (fun st x hx => markParamStep_refinv doc enums fuel x hx) _ _ ?_
  exact foldl_pres _ (fun st x hx => markParamStep_refinv doc enums fuel x hx) _ _ h

theorem markMethods_refinv (doc : Json) (enums : List (String × EnumDef))
    (fuel : Nat) {st : MarkState} (methods : Json) (h : RefInv st) :
    RefInv (markMethods doc enums fuel st methods) := by
  unfold markMethods
  exact foldl_pres _ (fun st op hx => markOp_refinv doc enums fuel _ op hx) _ _ h

/-- The node-marking lemma: running the marker (with positive fuel) on an
object node that is a reference puts the resolved name into the used set,
provided the invariant holds on entry. -/
theorem markSchema_marks_ref (doc : Json) (enums : List (String × EnumDef))
    (fuel : Nat) {s : Json} {st : MarkState} {r : String} (hInv : RefInv st)
    (hobj : Json.jsObjLike s = true) (href : refOf s = some r) :
    resolveRef r ∈ (markSchema doc enums (fuel + 1) s st).usedComponents := by
  rw [markSchema]
  split
  · rename_i hno; exact absurd hobj (by simpa using hno)
  split
  · rename_i hvis; exact hInv s hvis r href
  dsimp only
  split
  · rename_i r' heq
    have : refOf s = some r' := by unfold refOf; rw [heq]
    rw [href] at this
    cases this
    have hmem := mem_markComponent enums (resolveRef r)
      { st with visited := s :: st.visited }
    split
    · split
      · exact mem_of_le (markSchema_le doc enums fuel _ _) hmem
      · exact hmem
    · exact hmem
  · rename_i v hnstr heqr
    have : refOf s = none := by
      unfold refOf; rw [heqr]
      cases v <;> first | rfl | (rename_i sv; exact absurd rfl (hnstr sv))
    rw [href] at this
    exact (Option.noConfusion this)
  · rename_i heq
    have : refOf s = none := by unfold refOf; rw [heq]
    rw [href] at this
    exact (Option.noConfusion this)

/-- Establish a goal at a listed element and carry it through the rest of
a fold, maintaining an invariant. -/
theorem foldl_mem_estab {α : Type} {P Q : MarkState → Prop}
    (step : MarkState → α → MarkState) {x : α}
    (hP : ∀ st x', P st → P (step st x'))
    (hQ : ∀ st x', Q st → Q (step st x'))
    (hx : ∀ st, P st → Q (step st x)) :
    ∀ (l : List α), x ∈ l → ∀ st, P st → Q (List.foldl step st l) := by
  intro l
  induction l with
  | nil => intro hmem; exact absurd hmem (List.not_mem_nil x)
  | cons y ys ih =>
    intro hmem st hPst
    rcases List.mem_cons.mp hmem with hxy | hxy
    · subst hxy
      exact foldl_pres step hQ ys (step st x) (hx st hPst)
    · exact ih hxy (step st y) (hP st y hPst)

theorem RefInv_initial : RefInv MarkState.initial := by
  intro s hs
  exact absurd hs (List.not_mem_nil s)

theorem markParamStep_marks (doc : Json) (enums : List (String × EnumDef))
    (fuel : Nat) {st : MarkState} {p sch : Json} {r : String}
    (hInv : RefInv st) (hsch : Json.getT p "schema" = some sch)
    (hobj : Json.jsObjLike sch = true) (href : refOf sch = some r) :
    resolveRef r ∈ (markParamStep doc enums (fuel + 1) st p).usedComponents := by
  unfold markParamStep
  rw [hsch]
  exact markSchema_marks_ref doc enums fuel hInv hobj href

theorem markOp_marks (doc : Json) (enums : List (String × EnumDef))
    (fuel : Nat) (pathParams : List Json) {st : MarkState} {op p sch : Json}
    {r : String} (hInv : RefInv st) (hobj : Json.jsObjLike op = true)
    (hp : p ∈ pathParams ∨ p ∈ opOwnParams op)
    (hsch : Json.getT p "schema" = some sch)
    (hschobj : Json.jsObjLike sch = true) (href : refOf sch = some r) :
    resolveRef r ∈ (markOp doc enums (fuel + 1) pathParams st op).usedComponents := by
  rw [markOp]
  split
  · rename_i hno; exact absurd hobj (by simpa using hno)
  refine mem_of_le (markRespStep_le doc enums (fuel + 1) op _) ?_
  refine mem_of_le (markRbStep_le doc enums (fuel + 1) op _) ?_
  rcases hp with hp | hp
  · refine @foldl_pres Json (fun st => resolveRef r ∈ st.usedComponents)
      (markParamStep doc enums (fuel + 1))
      (fun st x hx => mem_of_le (markParamStep_le doc enums (fuel + 1) st x) hx)
      (opOwnParams op) _ ?_
    exact @foldl_mem_estab Json RefInv (fun st => resolveRef r ∈ st.usedComponents)
      (markParamStep doc enums (fuel + 1)) p
      (fun st x hx => markParamStep_refinv doc enums (fuel + 1) x hx)
      (fun st x hx => mem_of_le (markParamStep_le doc enums (fuel + 1) st x) hx)
      (fun st hP => markParamStep_marks doc enums fuel hP hsch hschobj href)
      pathParams hp st hInv
  · refine @foldl_mem_estab Json RefInv (fun st => resolveRef r ∈ st.usedComponents)
      (markParamStep doc enums (fuel + 1)) p
      (fun st x hx => markParamStep_refinv doc enums (fuel + 1) x hx)
      (fun st x hx => mem_of_le (markParamStep_le doc enums (fuel + 1) st x) hx)
      (fun st hP => markParamStep_marks doc enums fuel hP hsch hschobj href)
      (opOwnParams op) hp _ ?_
    exact @foldl_pres Json RefInv (markParamStep doc enums (fuel + 1))
      (fun st x hx => markParamStep_refinv doc enums (fuel + 1) x hx)
      pathParams st hInv

theorem markMethods_marks (doc : Json) (enums : List (String × EnumDef))
    (fuel : Nat) {st : MarkState} {methods op p sch : Json} {r : String}
    (hInv : RefInv st) (hop : op ∈ Json.valuesOf methods)
    (hobj : Json.jsObjLike op = true)
    (hp : p ∈ inheritedParams methods ∨ p ∈ opOwnParams op)
    (hsch : Json.getT p "schema" = some sch)
    (hschobj : Json.jsObjLike sch = true) (href : refOf sch = some r) :
    resolveRef r ∈ (markMethods doc enums (fuel + 1) st methods).usedComponents := by
  unfold markMethods
  exact @foldl_mem_estab Json RefInv (fun st => resolveRef r ∈ st.usedComponents)
    (markOp doc enums (fuel + 1) (inheritedParams methods)) op
    (fun st x hx => markOp_refinv doc enums (fuel + 1) _ x hx)
    (fun st x hx => mem_of_le (markOp_le doc enums (fuel + 1) _ st x) hx)
    (fun st hP => markOp_marks doc enums fuel (inheritedParams methods) hP hobj hp hsch hschobj href)
    (Json.valuesOf methods) hop st hInv


/-!  ### The output-assembly enum section -/

theorem emitEnumSection_js_go (st : MarkState) :
    ∀ (enums : List (String × EnumDef)) (acc : List String × List String),
      (List.foldl
        (fun acc kv =>
          ((if st.usedEnums.isEmpty || st.usedEnums.contains kv.1 then
              acc.1 ++ [kv.1]
            else acc.1),
            acc.2 ++ [kv.1])) acc enums).2 = acc.2 ++ enums.map Prod.fst := by
  intro enums
  induction enums with
  | nil => intro acc; simp
  | cons kv rest ih =>
    intro acc
    rw [List.foldl_cons, ih]
    simp

theorem emitEnumSection_ts_go (st : MarkState) (hu : st.usedEnums = []) :
    ∀ (enums : List (String × EnumDef)) (acc : List String × List String),
      (List.foldl
        (fun acc kv =>
          ((if st.usedEnums.isEmpty || st.usedEnums.contains kv.1 then
              acc.1 ++ [kv.1]
            else acc.1),
            acc.2 ++ [kv.1])) acc enums).1 = acc.1 ++ enums.map Prod.fst := by
  intro enums
  induction enums with
  | nil => intro acc; simp
  | cons kv rest ih =>
    intro acc
    rw [List.foldl_cons, ih]
    simp [hu]

theorem emitEnumSection_all (enums : List (String × EnumDef)) {st : MarkState}
    (hu : st.usedEnums = []) :
    emitEnumSection enums st = (enums.map Prod.fst, enums.map Prod.fst) := by
  unfold emitEnumSection
  rw [Prod.ext_iff]
  constructor
  · rw [emitEnumSection_ts_go st hu enums ([], [])]; simp
  · rw [emitEnumSection_js_go st enums ([], [])]; simp

/-!  ### Component emission over an unmarked state -/

theorem emitComponentsGo_skipAll (doc : Json) (enums : List (String × EnumDef))
    (fuel : Nat) {st : MarkState} (hu : st.usedComponents = []) :
    ∀ (entries : List (String × Json)) (acc : EmitResult),
      emitComponentsGo doc enums fuel entries acc st = some (acc, st) := by
  intro entries
  induction entries with
  | nil => intro acc; rfl
  | cons e rest ih =>
    intro acc
    obtain ⟨name, schema⟩ := e
    have hc : ¬ ((st.usedComponents.contains (toTypeName name) ||
        st.usedComponents.contains name) = true) := by
      rw [hu]; simp
    rw [emitComponentsGo, if_pos hc]
    exact ih acc

/-- C1 (counterexample): on a document with an empty `paths` map whose
components are the enum `Color` and the plain object `Widget`, the
generated type module contains no component entry at all — the claim's
"exported type for every Named Definition" fallback does not exist; only
the enum section falls back to "all". -/
theorem c1_counterexample :
    Json.entriesOf (pathsObj docC1) = [] ∧
    (Json.entriesOf (componentSchemas docC1)).map Prod.fst = ["Color", "Widget"] ∧
    (buildResult docC1).map (fun r => r.emit.typeEntries) = some [] :=
  ⟨rfl, rfl, rfl⟩

/-- C1 (amended): on a document with an empty `paths` map, the run
succeeds, no component entry is emitted into either the type or the
validator module, no operation is projected, and both enum sections (the
type module's declarations and the runtime JS mirror) fall back to every
collected enum definition. -/
theorem c1_amended (doc : Json) (h : Json.entriesOf (pathsObj doc) = []) :
    buildResult doc = some ⟨MarkState.initial, ⟨[], []⟩, [], MarkState.initial,
      (collectEnums doc).map Prod.fst, (collectEnums doc).map Prod.fst⟩ := by
  have hv : Json.valuesOf (pathsObj doc) = [] := by
    unfold Json.valuesOf; rw [h]; rfl
  have hm : markAllPaths doc (collectEnums doc) (buildFuel doc) MarkState.initial
      = MarkState.initial := by
    unfold markAllPaths; rw [hv]; rfl
  have he : emitComponents doc (collectEnums doc) (buildFuel doc) MarkState.initial
      = some (⟨[], []⟩, MarkState.initial) := by
    unfold emitComponents
    exact emitComponentsGo_skipAll doc (collectEnums doc) (buildFuel doc) rfl _ _
  have hpp : projectPaths doc (collectEnums doc) (buildFuel doc) MarkState.initial
      = some ([], MarkState.initial) := by
    unfold projectPaths; rw [h]; rfl
  have hs : emitEnumSection (collectEnums doc) MarkState.initial
      = ((collectEnums doc).map Prod.fst, (collectEnums doc).map Prod.fst) :=
    emitEnumSection_all _ rfl
  unfold buildResult
  dsimp only
  rw [hm, he]
  dsimp only
  rw [hpp]
  dsimp only
  rw [hs]

/-- C1 (witness): the amended statement evaluated on `docC1`. -/
theorem c1_witness :
    buildResult docC1 = some ⟨MarkState.initial, ⟨[], []⟩, [], MarkState.initial,
      ["Color"], ["Color"]⟩ :=
  c1_amended docC1 rfl

/-- C10: the runtime (non-type) JavaScript module's enum section declares
an exported object for every collected enum definition, for every
compilation state — in particular the used-enum filter that gates the type
module's enum declarations is never applied to it, also when the used-enum
set is non-empty. -/
theorem c10_theorem (enums : List (String × EnumDef)) (st : MarkState) :
    (emitEnumSection enums st).2 = enums.map Prod.fst := by
  unfold emitEnumSection
  rw [emitEnumSection_js_go st enums ([], [])]
  simp

/-!  ### Single-literal enum lookup -/

theorem findIdxJson_eq_none {vs : List Json} {v : Json} (h : v ∉ vs) :
    findIdxJson vs v = none := by
  induction vs with
  | nil => rfl
  | cons x xs ih =>
    unfold findIdxJson at ih ⊢
    rw [List.findIdx?_cons]
    have hx : decide (x = v) = false := by
      simp only [decide_eq_false_iff_not]
      intro hxv
      exact h (hxv ▸ List.mem_cons_self x xs)
    simp [hx, ih (fun hm => h (List.mem_cons_of_mem x hm))]

theorem findExactEnum_none {enums : List (String × EnumDef)} {vs : List Json}
    (h : ∀ p ∈ enums, p.2.values ≠ vs) : findExactEnum enums vs = none := by
  induction enums with
  | nil => rfl
  | cons pe rest ih =>
    obtain ⟨name, e⟩ := pe
    unfold findExactEnum
    rw [if_neg (h (name, e) (List.mem_cons_self _ _))]
    exact ih fun p hp => h p (List.mem_cons_of_mem _ hp)

theorem findSingleLit_none {val : Json} :
    ∀ {enums : List (String × EnumDef)},
      (∀ p ∈ enums, val ∈ p.2.values → genericEnumName p.1 = true) →
      findSingleLit enums val = none := by
  intro enums
  induction enums with
  | nil => intro h; rfl
  | cons pe rest ih =>
    intro h
    obtain ⟨name, e⟩ := pe
    have hrest := ih fun p hp => h p (List.mem_cons_of_mem _ hp)
    unfold findSingleLit
    by_cases hmem : val ∈ e.values
    · have hgen : genericEnumName name = true :=
        h (name, e) (List.mem_cons_self _ _) hmem
      cases hidx : findIdxJson e.values val with
      | none => exact hrest
      | some idx => simp [hidx, hgen, hrest]
    · rw [findIdxJson_eq_none hmem]
      exact hrest

theorem findConstLit_append {val : Json} {pre : List (String × EnumDef)}
    (l : List (String × EnumDef)) (h : ∀ p ∈ pre, val ∉ p.2.values) :
    findConstLit (pre ++ l) val = findConstLit l val := by
  induction pre with
  | nil => rfl
  | cons pe rest ih =>
    obtain ⟨name, e⟩ := pe
    rw [List.cons_append, findConstLit,
      findIdxJson_eq_none (h (name, e) (List.mem_cons_self _ _))]
    exact ih fun p hp => h p (List.mem_cons_of_mem _ hp)

/-- C2 (counterexample): with the generic-named enum `CommandOptionType`
(values 3, 4) and the non-generic `ButtonStyle` (value 3): the
single-literal lookup for the value 4 fails although `CommandOptionType`
is its only candidate (refuting "it is still chosen when no other
candidate exists"), and the `const` 3 — contained in both enums — resolves
to the generic enum's member, not to `ButtonStyle`'s (refuting the claimed
non-generic preference). -/
theorem c2_counterexample :
    genericEnumName "CommandOptionType" = true ∧
    genericEnumName "ButtonStyle" = false ∧
    (mapEnumForEnum (collectEnums docC2) [Json.num 4] MarkState.initial).1
      = none ∧
    (mapEnumForConst (collectEnums docC2) (Json.num 3) MarkState.initial).1
      = some "CommandOptionType.OPT_A" :=
  ⟨rfl, rfl, rfl, rfl⟩

/-- C2 (amended): (a) an enum whose name matches the generic-discriminator
pattern is excluded from the single-literal `enum` lookup unconditionally,
so the lookup fails whenever every enum containing the literal is generic
— also when a generic enum is the only candidate; (b) a single-value
`const` resolves to the first enum in declaration order whose values
contain it, regardless of the generic-discriminator pattern. -/
theorem c2_amended :
    (∀ (enums : List (String × EnumDef)) (val : Json) (st : MarkState),
      (∀ p ∈ enums, p.2.values ≠ [val]) →
      (∀ p ∈ enums, val ∈ p.2.values → genericEnumName p.1 = true) →
      mapEnumForEnum enums [val] st = (none, st)) ∧
    (∀ (pre rest : List (String × EnumDef)) (n₀ : String) (e₀ : EnumDef)
        (val : Json) (st : MarkState) (idx : Nat),
      (∀ p ∈ pre, val ∉ p.2.values) →
      findIdxJson e₀.values val = some idx →
      mapEnumForConst (pre ++ (n₀, e₀) :: rest) val st =
        (some (qualifiedMember n₀ e₀ idx),
          markEnumUse (pre ++ (n₀, e₀) :: rest) n₀ st)) := by
  constructor
  · intro enums val st hne hgen
    unfold mapEnumForEnum
    rw [findExactEnum_none hne]
    dsimp only
    rw [findSingleLit_none hgen]
  · intro pre rest n₀ e₀ val st idx hpre hidx
    have hfc : findConstLit (pre ++ (n₀, e₀) :: rest) val = some (n₀, e₀, idx) := by
      rw [findConstLit_append _ hpre, findConstLit, hidx]
    unfold mapEnumForConst
    rw [hfc]

/-- C3 (counterexample): on `docC3` the marking pass records no used
component at all ($ref parameters are skipped by the marker), yet after
operation projection the used-component set holds `Payload` — projection
resolved the referenced parameter and its schema walk added to the set, so
the sets are not frozen when synthesis begins. -/
theorem c3_counterexample :
    (buildResult docC3).map
        (fun r => (r.stMarked.usedComponents, r.stFinal.usedComponents,
          r.emit.typeEntries)) =
      some ([], ["Payload"], []) :=
  rfl

/-- C3 (amended): the used-component and used-enum sets are not frozen
after the marking pass — they are append-only across the whole run: the
marking pass, the component-emission stage and the operation/path
projection each only ever extend both sets (the projection's
`typeFromSchema` calls in particular may add elements, as the
counterexample shows). -/
theorem c3_amended :
    (∀ (doc : Json) (enums : List (String × EnumDef)) (fuel : Nat)
        (st : MarkState), MarkState.le st (markAllPaths doc enums fuel st)) ∧
    (∀ (doc : Json) (enums : List (String × EnumDef)) (fuel : Nat)
        (st : MarkState), optionStateLe st (emitComponents doc enums fuel st)) ∧
    (∀ (doc : Json) (enums : List (String × EnumDef)) (fuel : Nat)
        (st : MarkState), optionStateLe st (projectPaths doc enums fuel st)) :=
  ⟨markAllPaths_le, emitComponents_le, projectPaths_le⟩

/-- C4 (code bug): the marker's reachability computation misses exactly
the parameters declared as `$ref`s into `components.parameters`, and the
miss corrupts the output.  On `docC4` — whose only operation's only
parameter is such a `$ref`, with a resolved parameter schema referencing
the component `Filter` — the marking pass records nothing (the marker
reads only `p.schema` off the raw parameter object and never resolves the
reference), so no component is emitted; yet the projector *does* resolve
the same parameter and renders its type as the nominal name `Filter`: the
generated type module references an exported type that was never
declared.  The final conjunct shows `Filter` entering the used set only
during projection, after emission is over. -/
theorem c4_theorem :
    (resolveParameterRef docC4 "#/components/parameters/FilterParam").bind
        (fun p => Json.getT p "schema")
      = some (Json.obj [("$ref", Json.str "#/components/schemas/Filter")]) ∧
    (buildResult docC4).map (fun r =>
        (r.stMarked.usedComponents, r.emit.typeEntries, r.emit.zodEntries,
          r.ops.map (fun o => (o.route, o.method,
            o.params.query.map ParamEntry.type)),
          r.stFinal.usedComponents)) =
      some ([], [], [], [("/items", "get", ["Filter"])], ["Filter"]) :=
  ⟨rfl, rfl⟩

/-- The flip side of the C4 bug, as development: the marking pass *does*
record every component referenced by an inline parameter schema — for any
operation of any route, a parameter carried inline at the route level or
the method level whose truthy `schema` is an object with a truthy string
`$ref` gets its resolved component name into the used-component set.  The
asymmetry between this and `c4_theorem`'s `$ref`-declared parameter is
precisely the divergence. -/
theorem markAllPaths_marks_inline_param (doc : Json)
    (enums : List (String × EnumDef)) (fuel : Nat)
    (methods op p sch : Json) (r : String)
    (hm : methods ∈ Json.valuesOf (pathsObj doc))
    (hop : op ∈ Json.valuesOf methods)
    (hobj : Json.jsObjLike op = true)
    (hp : p ∈ inheritedParams methods ∨ p ∈ opOwnParams op)
    (hsch : Json.getT p "schema" = some sch)
    (hschobj : Json.jsObjLike sch = true)
    (href : refOf sch = some r) :
    resolveRef r ∈
      (markAllPaths doc enums (fuel + 1) MarkState.initial).usedComponents := by
  unfold markAllPaths
  exact @foldl_mem_estab Json RefInv (fun st => resolveRef r ∈ st.usedComponents)
    (markMethods doc enums (fuel + 1)) methods
    (fun st x hx => markMethods_refinv doc enums (fuel + 1) x hx)
    (fun st x hx => mem_of_le (markMethods_le doc enums (fuel + 1) st x) hx)
    (fun st hP =>
      markMethods_marks doc enums fuel hP hop hobj hp hsch hschobj href)
    (Json.valuesOf (pathsObj doc)) hm MarkState.initial RefInv_initial

/-- `markAllPaths_marks_inline_param` evaluated on `docC4w`, whose `get`
operation carries the inline parameter `paramC4w` with the schema
`schC4w`, a direct reference to `Filter`. -/
theorem markAllPaths_marks_inline_param_demo :
    resolveRef "#/components/schemas/Filter" ∈
      (markAllPaths docC4w [] (7 + 1) MarkState.initial).usedComponents :=
  markAllPaths_marks_inline_param docC4w [] 7 methodsC4w opC4w paramC4w schC4w
    "#/components/schemas/Filter" (by decide) (by decide) (by decide)
    (Or.inr (by decide)) (by decide) (by decide) (by decide)

/-!  ### Shape of the component-emission output -/

theorem emitComponentsGo_shape (doc : Json) (enums : List (String × EnumDef))
    (fuel : Nat) :
    ∀ (entries : List (String × Json)) (acc : EmitResult) (st : MarkState)
      (res : EmitResult) (stq : MarkState),
      emitComponentsGo doc enums fuel entries acc st = some (res, stq) →
      ∃ zs : List String,
        res.zodEntries = acc.zodEntries ++ zs ∧
        res.typeEntries = acc.typeEntries ++
          zs.filter (fun n => !(lookupEnum enums n).isSome) ∧
        List.Sublist zs (entries.map Prod.fst) := by
  intro entries
  induction entries with
  | nil =>
    intro acc st res stq h
    rw [emitComponentsGo] at h
    cases h
    exact ⟨[], by simp, by simp, List.Sublist.refl _⟩
  | cons e rest ih =>
    intro acc st res stq h
    obtain ⟨name, schema⟩ := e
    rw [emitComponentsGo] at h
    split at h
    · obtain ⟨zs, h₁, h₂, h₃⟩ := ih acc st res stq h
      exact ⟨zs, h₁, h₂, List.Sublist.cons _ h₃⟩
    · split at h
      · rename_i e0 heq
        obtain ⟨zs, h₁, h₂, h₃⟩ := ih _ st res stq h
        refine ⟨name :: zs, ?_, ?_, List.Sublist.cons₂ _ h₃⟩
        · rw [h₁]; simp
        · rw [h₂]; simp [List.filter_cons, heq]
      · rename_i heq
        split at h
        · cases h
        · rename_i t st₁ heqT
          obtain ⟨zs, h₁, h₂, h₃⟩ := ih _ _ res stq h
          refine ⟨name :: zs, ?_, ?_, List.Sublist.cons₂ _ h₃⟩
          · rw [h₁]; simp
          · rw [h₂]; simp [List.filter_cons, heq]

/-- C5 (counterexample): on `docC5` both `Account` and the enum-encoded
`Status` are used Named Definitions, and the validator module has one
entry for each — but the type module has an entry only for `Account`: an
enum-named component's type-module declaration lives in the enum section
instead, so the two modules do not have an entry for every used Named
Definition each. -/
theorem c5_counterexample :
    (buildResult docC5).map
        (fun r => (r.stMarked.usedComponents, r.emit.typeEntries,
          r.emit.zodEntries)) =
      some (["Account", "Status"], ["Account"], ["Account", "Status"]) :=
  rfl

theorem contains_mono {l lq : List String} (hs : l ⊆ lq) {a : String}
    (h : l.contains a = true) : lq.contains a = true := by
  simp only [List.elem_iff] at h ⊢
  exact hs h

/-- The emission gate only ever opens as the usage sets grow. -/
theorem usedGate_mono {st stq : MarkState} (hle : st.le stq) {name : String}
    (h : (st.usedComponents.contains (toTypeName name) ||
      st.usedComponents.contains name) = true) :
    (stq.usedComponents.contains (toTypeName name) ||
      stq.usedComponents.contains name) = true := by
  simp only [Bool.or_eq_true] at h ⊢
  rcases h with h | h
  · exact Or.inl (contains_mono hle.1 h)
  · exact Or.inr (contains_mono hle.1 h)

/-- Completeness of the emission loop: an entry whose name passes the
usage gate on the state the loop starts with receives a validator entry
(the states only grow, so the gate still passes when the loop reaches the
entry), and a type entry when its name is not an enum definition. -/
theorem emitComponentsGo_complete (doc : Json) (enums : List (String × EnumDef))
    (fuel : Nat) :
    ∀ (entries : List (String × Json)) (acc : EmitResult) (st : MarkState)
      (res : EmitResult) (stq : MarkState) (name : String) (schema : Json),
      emitComponentsGo doc enums fuel entries acc st = some (res, stq) →
      (name, schema) ∈ entries →
      (st.usedComponents.contains (toTypeName name) ||
        st.usedComponents.contains name) = true →
      name ∈ res.zodEntries ∧
        ((lookupEnum enums name).isSome = false → name ∈ res.typeEntries) := by
  intro entries
  induction entries with
  | nil =>
    intro acc st res stq name schema h hmem hg
    exact absurd hmem (List.not_mem_nil _)
  | cons e rest ih =>
    intro acc st res stq name schema h hmem hg
    obtain ⟨n0, s0⟩ := e
    rw [emitComponentsGo] at h
    rcases List.mem_cons.mp hmem with hh | hh
    · injection hh with hh1 hh2
      subst hh1
      subst hh2
      split at h
      · rename_i hskip
        exact absurd hg hskip
      · split at h
        · rename_i e0 heqE
          obtain ⟨zs, h1, h2, h3⟩ :=
            emitComponentsGo_shape doc enums fuel rest _ st res stq h
          constructor
          · rw [h1]; simp
          · intro hns
            rw [heqE] at hns
            simp at hns
        · split at h
          · cases h
          · rename_i t st₁ heqT
            obtain ⟨zs, h1, h2, h3⟩ :=
              emitComponentsGo_shape doc enums fuel rest _ _ res stq h
            constructor
            · rw [h1]; simp
            · intro hns
              rw [h2]; simp
    · split at h
      · exact ih acc st res stq name schema h hh hg
      · split at h
        · exact ih _ st res stq name schema h hh hg
        · split at h
          · cases h
          · rename_i t st₁ heqT
            refine ih _ _ res stq name schema h hh (usedGate_mono ?_ hg)
            refine MarkState.le_trans
              (optionStateLe_some (typeFromSchema_le doc enums fuel s0 st) heqT) ?_
            exact zodFromSchema_le doc enums fuel s0 st₁

/-- C5 (amended): whenever component emission succeeds, (a) the type
module's entries are exactly the validator entries whose names are not
enum definitions, in the same relative order; (b) the validator entries
form a subsequence of the component declarations in declaration order;
(c) every Named Definition whose name is marked used in the state the
emission starts with (the marking pass's output — a component first marked
during the later projection stage receives no entry) gets a validator
entry, and a type entry exactly when it is not enum-named; (d) with
distinct component keys each emitted name appears exactly once.  So used
non-enum Named Definitions get exactly one entry in each module, in the
same relative order, while used enum-named ones get a validator entry
only (their type-module declaration lives in the enum section). -/
theorem c5_amended (doc : Json) (enums : List (String × EnumDef)) (fuel : Nat)
    (st : MarkState) (res : EmitResult) (stq : MarkState)
    (h : emitComponents doc enums fuel st = some (res, stq)) :
    res.typeEntries = res.zodEntries.filter
        (fun n => !(lookupEnum enums n).isSome) ∧
    List.Sublist res.zodEntries
      ((Json.entriesOf (componentSchemas doc)).map Prod.fst) ∧
    (∀ name schema,
      (name, schema) ∈ Json.entriesOf (componentSchemas doc) →
      (st.usedComponents.contains (toTypeName name) ||
        st.usedComponents.contains name) = true →
      name ∈ res.zodEntries ∧
        ((lookupEnum enums name).isSome = false → name ∈ res.typeEntries)) ∧
    (((Json.entriesOf (componentSchemas doc)).map Prod.fst).Nodup →
      res.zodEntries.Nodup) := by
  unfold emitComponents at h
  obtain ⟨zs, h₁, h₂, h₃⟩ := emitComponentsGo_shape doc enums fuel _ _ _ _ _ h
  have hsub : List.Sublist res.zodEntries
      ((Json.entriesOf (componentSchemas doc)).map Prod.fst) := by
    rw [h₁]; simpa using h₃
  refine ⟨?_, hsub, ?_, fun hnod => hnod.sublist hsub⟩
  · rw [h₁, h₂]; simp
  · intro name schema hmem hg
    exact emitComponentsGo_complete doc enums fuel _ _ _ _ _ name schema h hmem hg

/-- C5 (witness): the amended statement evaluated on `docC5` at the marked
state `stMarkC5`, where emission yields the entries recorded in `resC5`
(`Account` in both modules, the enum-named `Status` in the validator
module only). -/
theorem c5_witness :
    resC5.typeEntries = resC5.zodEntries.filter
        (fun n => !(lookupEnum (collectEnums docC5) n).isSome) ∧
    List.Sublist resC5.zodEntries
      ((Json.entriesOf (componentSchemas docC5)).map Prod.fst) ∧
    (∀ name schema,
      (name, schema) ∈ Json.entriesOf (componentSchemas docC5) →
      (stMarkC5.usedComponents.contains (toTypeName name) ||
        stMarkC5.usedComponents.contains name) = true →
      name ∈ resC5.zodEntries ∧
        ((lookupEnum (collectEnums docC5) name).isSome = false →
          name ∈ resC5.typeEntries)) ∧
    (((Json.entriesOf (componentSchemas docC5)).map Prod.fst).Nodup →
      resC5.zodEntries.Nodup) :=
  c5_amended docC5 (collectEnums docC5) (buildFuel docC5) stMarkC5 resC5 stC5x
    rfl

/-- C6: at every schema node carrying a truthy string `$ref`, both
synthesizers render the reference nominally — the type synthesizer
returns exactly the resolved component name and the validator synthesizer
a deferred `z.lazy` binding to the named schema, both marking the
component and neither recursing into (or otherwise depending on) the
referenced definition's body; in particular recursive and mutually
recursive Named Definitions render as their names and the synthesis
terminates on them. -/
theorem c6_theorem (doc : Json) (enums : List (String × EnumDef)) (fuel : Nat)
    (s : Json) (st : MarkState) (r : String)
    (hobj : Json.jsObjLike s = true)
    (href : Json.getT s "$ref" = some (Json.str r)) :
    typeFromSchema doc enums (fuel + 1) s st =
      some (resolveRef r, markComponent enums (resolveRef r) st) ∧
    zodFromSchema doc enums (fuel + 1) s st =
      ("/* @__PURE__ */ z.lazy(() => " ++ resolveRef r ++ "Schema)",
        markComponent enums (resolveRef r) st) := by
  constructor
  · rw [typeFromSchema]
    simp [hobj, href]
  · rw [zodFromSchema]
    simp [hobj, href]

/-- C6 (witness): the self-referential `Node` of `docC6`: the reference
node renders as the name `Node` and as `z.lazy(() => NodeSchema)`. -/
theorem c6_witness :
    typeFromSchema docC6 [] (4 + 1) refNode MarkState.initial =
      some ("Node", markComponent [] "Node" MarkState.initial) ∧
    zodFromSchema docC6 [] (4 + 1) refNode MarkState.initial =
      ("/* @__PURE__ */ z.lazy(() => NodeSchema)",
        markComponent [] "Node" MarkState.initial) :=
  c6_theorem docC6 [] 4 refNode MarkState.initial "#/components/schemas/Node"
    rfl rfl

/-!  ### The content-type preference order -/

theorem findSome?_append_none {α β : Type} (f : α → Option β) :
    ∀ (pre : List α), (∀ c ∈ pre, f c = none) → ∀ (l : List α),
      List.findSome? f (pre ++ l) = List.findSome? f l := by
  intro pre
  induction pre with
  | nil => intro _ l; rfl
  | cons x xs ih =>
    intro h l
    rw [List.cons_append, List.findSome?_cons, h x (List.mem_cons_self _ _)]
    exact ih (fun c hc => h c (List.mem_cons_of_mem _ hc)) l

/-- C7: the rendered schema of a content map is chosen along the fixed
preference list `pickOrder` (`application/json`, then
`application/merge-patch+json`, then the form encodings, then
`image/png`): whenever every earlier preference carries no schema and the
content type `ct` carries one, the map renders `ct`'s schema — regardless
of the order in which the content types appear in the document. -/
theorem c7_theorem (doc : Json) (enums : List (String × EnumDef)) (fuel : Nat)
    (content : Json) (st : MarkState) (pre post : List String) (ct : String)
    (sch : Json)
    (hobj : Json.isObject content = true)
    (hsplit : pickOrder = pre ++ ct :: post)
    (hpre : ∀ c ∈ pre, hasEntrySchema content c = none)
    (hct : hasEntrySchema content ct = some sch) :
    pickContentType doc enums fuel content st =
      (typeFromSchema doc enums fuel sch st).map
        (fun p => ((p.1, ct), p.2)) := by
  have hps : pickSchema content = some (sch, ct) := by
    unfold pickSchema
    have hfs : List.findSome?
        (fun c => (hasEntrySchema content c).map fun s => (s, c)) pickOrder
        = some (sch, ct) := by
      rw [hsplit, findSome?_append_none _ pre
        (fun c hc => by rw [hpre c hc]; rfl), List.findSome?_cons, hct]
      rfl
    rw [hfs]
  unfold pickContentType
  rw [if_neg (by rw [hobj]; simp), hps]
  cases ht : typeFromSchema doc enums fuel sch st with
  | none => simp [ht]
  | some p => simp [ht]

/-- C7 (witness): `contentC7` declares `image/png` before
`application/json` in document order; the JSON entry's schema is rendered
nevertheless. -/
theorem c7_witness :
    pickContentType (Json.obj []) [] 9 contentC7 MarkState.initial =
      (typeFromSchema (Json.obj []) [] 9
          (Json.obj [("type", Json.str "integer")]) MarkState.initial).map
        (fun p => ((p.1, "application/json"), p.2)) :=
  c7_theorem (Json.obj []) [] 9 contentC7 MarkState.initial []
    ["application/merge-patch+json", "multipart/form-data",
      "application/x-www-form-urlencoded", "image/png"]
    "application/json" (Json.obj [("type", Json.str "integer")])
    rfl rfl (fun c hc => absurd hc (List.not_mem_nil c)) rfl

/-- C9: on the schema node `crashSchema`, whose `properties` map carries a
`null` property schema, the type synthesizer does not return a value at
all — the modelled JS program throws a TypeError reading `.nullable` off
`null` — while the validator synthesizer, which guards the same access,
totally renders the property as the unconstrained `z.unknown()`
placeholder.  This refutes "neither synthesizer raises an error on any
schema input". -/
theorem c9_theorem :
    typeFromSchema (Json.obj []) [] 9 crashSchema MarkState.initial = none ∧
    zodFromSchema (Json.obj []) [] 9 crashSchema MarkState.initial =
      ("/* @__PURE__ */ z.object(\x7b \"a\": /* @__PURE__ */ z.unknown() \x7d)",
        MarkState.initial) :=
  ⟨rfl, rfl⟩

/-!  ### Parameter grouping -/

theorem mem_group_push_self {loc : String}
    (hloc4 : loc = "path" ∨ loc = "query" ∨ loc = "header" ∨ loc = "cookie")
    (g : ParamGroups) (e : ParamEntry) : e ∈ (g.push loc e).group loc := by
  rcases hloc4 with h4 | h4 | h4 | h4 <;> subst h4 <;>
    exact List.mem_append_right _ (List.mem_singleton_self e)

theorem mem_group_push {loc : String}
    (hloc4 : loc = "path" ∨ loc = "query" ∨ loc = "header" ∨ loc = "cookie")
    {g : ParamGroups} {e : ParamEntry} (locq : String) (eq : ParamEntry)
    (h : e ∈ g.group loc) : e ∈ (g.push locq eq).group loc := by
  unfold ParamGroups.push
  rcases hloc4 with h4 | h4 | h4 | h4 <;> subst h4 <;>
    (repeat' split) <;>
    (first
      | exact List.mem_append_left _ h
      | exact h)

theorem groupsQ_step {loc : String}
    (hloc4 : loc = "path" ∨ loc = "query" ∨ loc = "header" ∨ loc = "cookie")
    {en er : Option Json} {g gq : ParamGroups}
    (hrel : gq = g ∨ ∃ l e, gq = g.push l e)
    (hq : ∃ t, (⟨en, t, er⟩ : ParamEntry) ∈ g.group loc) :
    ∃ t, (⟨en, t, er⟩ : ParamEntry) ∈ gq.group loc := by
  obtain ⟨t, hmem⟩ := hq
  rcases hrel with hrel | ⟨l, e, hrel⟩
  · exact ⟨t, hrel ▸ hmem⟩
  · exact ⟨t, hrel ▸ mem_group_push hloc4 l e hmem⟩

theorem collectParam_groups (doc : Json) (enums : List (String × EnumDef))
    (fuel : Nat) (acc : ParamGroups × MarkState) (q : Json)
    {accq : ParamGroups × MarkState}
    (h : collectParam doc enums fuel acc q = some accq) :
    accq.1 = acc.1 ∨ ∃ l e, accq.1 = acc.1.push l e := by
  unfold collectParam at h
  split at h
  · cases h; exact Or.inl rfl
  · dsimp only at h
    split at h
    · cases h
    · rename_i t st₁ heq
      cases h
      exact Or.inr ⟨_, _, rfl⟩

theorem collectParam_estab (doc : Json) (enums : List (String × EnumDef))
    (fuel : Nat) (acc : ParamGroups × MarkState) {p : Json} {loc : String}
    (htru : Json.truthy p = true)
    (hlocp : Json.getT p "in" = some (Json.str loc))
    {accq : ParamGroups × MarkState}
    (h : collectParam doc enums fuel acc p = some accq) :
    ∃ t, accq.1 =
      acc.1.push loc ⟨Json.get p "name", t, Json.get p "required"⟩ := by
  unfold collectParam at h
  rw [if_neg (by rw [htru]; simp)] at h
  dsimp only at h
  split at h
  · cases h
  · rename_i t st₁ heq
    cases h
    rw [hlocp]
    exact ⟨t, rfl⟩

theorem paramsFold_presQ (doc : Json) (enums : List (String × EnumDef))
    (fuel : Nat) {loc : String}
    (hloc4 : loc = "path" ∨ loc = "query" ∨ loc = "header" ∨ loc = "cookie")
    {en er : Option Json} :
    ∀ (ps : List Json) (acc out : ParamGroups × MarkState),
      paramsFold doc enums fuel ps acc = some out →
      (∃ t, (⟨en, t, er⟩ : ParamEntry) ∈ acc.1.group loc) →
      ∃ t, (⟨en, t, er⟩ : ParamEntry) ∈ out.1.group loc := by
  intro ps
  induction ps with
  | nil =>
    intro acc out h hq
    rw [paramsFold] at h
    cases h
    exact hq
  | cons q qs ih =>
    intro acc out h hq
    rw [paramsFold] at h
    try dsimp only at h
    split at h
    · cases h
    · rename_i accq heq
      refine ih accq out h (groupsQ_step hloc4 ?_ hq)
      split at heq
      · split at heq
        · split at heq
          · exact collectParam_groups doc enums fuel acc _ heq
          · cases heq; exact Or.inl rfl
        · cases heq; exact Or.inl rfl
      · cases heq; exact Or.inl rfl
      · exact collectParam_groups doc enums fuel acc _ heq

theorem paramsFold_estab (doc : Json) (enums : List (String × EnumDef))
    (fuel : Nat) {p : Json} {loc : String}
    (hloc4 : loc = "path" ∨ loc = "query" ∨ loc = "header" ∨ loc = "cookie")
    (htru : Json.truthy p = true) (hnoref : Json.getT p "$ref" = none)
    (hlocp : Json.getT p "in" = some (Json.str loc)) :
    ∀ (ps : List Json) (acc out : ParamGroups × MarkState),
      p ∈ ps → paramsFold doc enums fuel ps acc = some out →
      ∃ t, (⟨Json.get p "name", t, Json.get p "required"⟩ : ParamEntry)
        ∈ out.1.group loc := by
  intro ps
  induction ps with
  | nil => intro acc out hmem; exact absurd hmem (List.not_mem_nil p)
  | cons q qs ih =>
    intro acc out hmem h
    rw [paramsFold] at h
    try dsimp only at h
    split at h
    · cases h
    · rename_i accq heq
      rcases List.mem_cons.mp hmem with hpq | hpq
      · subst hpq
        rw [hnoref] at heq
        obtain ⟨t, hpush⟩ := collectParam_estab doc enums fuel acc htru hlocp heq
        refine paramsFold_presQ doc enums fuel hloc4 qs accq out h ⟨t, ?_⟩
        rw [hpush]
        exact mem_group_push_self hloc4 acc.1 _
      · exact ih accq out hpq h

/-- C8: the parameter record of every (route, method) operation is built
over the concatenation of the route-level parameter array with the
method-level one (method-level entries extending the inherited ones), each
collected parameter is pushed under its declared `in` location, and every
truthy inline route-level parameter with a recognized location — in
particular one not re-declared at the method level — appears in the
operation's group for that location. -/
theorem c8_theorem (doc : Json) (enums : List (String × EnumDef)) (fuel : Nat)
    (methods op p : Json) (loc : String) (groups : ParamGroups)
    (st stq : MarkState)
    (hrun : buildParamGroups doc enums fuel methods op st = some (groups, stq))
    (hp : p ∈ inheritedParams methods)
    (htru : Json.truthy p = true)
    (hnoref : Json.getT p "$ref" = none)
    (hlocp : Json.getT p "in" = some (Json.str loc))
    (hloc4 : loc = "path" ∨ loc = "query" ∨ loc = "header" ∨ loc = "cookie") :
    buildParamGroups doc enums fuel methods op st =
      paramsFold doc enums fuel (inheritedParams methods ++ opOwnParams op)
        (ParamGroups.empty, st) ∧
    ∃ t, (⟨Json.get p "name", t, Json.get p "required"⟩ : ParamEntry)
      ∈ groups.group loc := by
  refine ⟨rfl, ?_⟩
  unfold buildParamGroups at hrun
  exact paramsFold_estab doc enums fuel hloc4 htru hnoref hlocp
    (inheritedParams methods ++ opOwnParams op) (ParamGroups.empty, st)
    (groups, stq) (List.mem_append_left _ hp) hrun

/-- C8 (witness): the route-level `limit` query parameter of `methodsC8`,
not re-declared by the `get` operation `opC8`, appears in that operation's
query group. -/
theorem c8_witness :
    buildParamGroups (Json.obj []) [] 9 methodsC8 opC8 MarkState.initial =
      paramsFold (Json.obj []) [] 9
        (inheritedParams methodsC8 ++ opOwnParams opC8)
        (ParamGroups.empty, MarkState.initial) ∧
    ∃ t, (⟨Json.get paramC8 "name", t, Json.get paramC8 "required"⟩ : ParamEntry)
      ∈ groupsC8.group "query" :=
  c8_theorem (Json.obj []) [] 9 methodsC8 opC8 paramC8 "query" groupsC8
    MarkState.initial stC8x rfl (by decide) rfl rfl rfl (Or.inr (Or.inl rfl))
